import Mathlib

/-!
Verification of libpropcalc (taboege/libpropcalc) against its specification.

The embedding models the C++ sources under src/.  The library stores a
formula as a preorder ("polish notation") vector of `Ast` records
(src/include/formula.hpp, field `pn`); a preorder vector of a well-formed
formula is in bijection with an ordinary tree, so the embedding uses an
inductive tree `Ast` and a flattening `preorder` to node lists.  Stack
machines from the source (`Formula::eval`, `Formula::to_postfix`,
`Formula::to_infix`) are translated literally as folds over the node
list and related to structural recursions by bridge lemmas.

Variables: the C++ `Ast` node stores `var = domain->pack(domain->resolve(name))`
and all consumers go through `domain->unpack`, which is a bijection between
allocated `VarNr`s and `VarRef`s (proved separately for the `Cache` model
below).  The embedding therefore makes the variable payload a type
parameter `V`: `V = Nat` (the packed `VarNr`) for the semantic claims and
`V = String` (the resolved name, which determines the `VarNr` through the
shared domain) for the parser/stringification claims.
-/

namespace Propcalc

/-- AST node types, as in `Ast::Type` (src/include/ast.hpp): `Const`,
`Var`, `Not`, `And`, `Or`, `Impl`, `Eqv`, `Xor`.  The tree form of the
preorder vector `Formula::pn`. -/
inductive Ast (V : Type) where
  | const (value : Bool)
  | var (v : V)
  | not (rhs : Ast V)
  | and (lhs rhs : Ast V)
  | or (lhs rhs : Ast V)
  | impl (lhs rhs : Ast V)
  | eqv (lhs rhs : Ast V)
  | xor (lhs rhs : Ast V)
deriving DecidableEq

/-- A single record of the `pn` vector: the node tag together with its
payload (`value` for constants, `var` for variables), as in `struct Ast`
of src/include/ast.hpp specialized to one node. -/
inductive Node (V : Type) where
  | const (value : Bool)
  | var (v : V)
  | not
  | and
  | or
  | impl
  | eqv
  | xor
deriving DecidableEq

/-- Preorder traversal of the AST: the contents of the vector
`Formula::pn`.  The parser builds this vector by the concatenation
`op ++ lhs ++ rhs` in `reduce` (src/core/formula.cpp), which is exactly
this flattening. -/
def Ast.preorder {V : Type} : Ast V → List (Node V)
  | .const b => [.const b]
  | .var v => [.var v]
  | .not x => .not :: x.preorder
  | .and l r => .and :: (l.preorder ++ r.preorder)
  | .or l r => .or :: (l.preorder ++ r.preorder)
  | .impl l r => .impl :: (l.preorder ++ r.preorder)
  | .eqv l r => .eqv :: (l.preorder ++ r.preorder)
  | .xor l r => .xor :: (l.preorder ++ r.preorder)

/-!
## VarMap and Assignment

`VarMap` (src/include/varmap.hpp) is an insertion-ordered list `order` of
variables together with a map `vmap` from variables to booleans.
`Assignment` (src/include/assignment.hpp) adds the `overflow` flag.
The C++ map is an `unordered_map`; the embedding uses an association
list looked up by first match, which agrees with the map on all states
the library constructs (one entry per key).
-/

/-- First-match lookup in an association list, the model of
`unordered_map::find` / `at`.  `none` models "key absent"
(`at` throws `std::out_of_range` there). -/
def alookup {V : Type} [DecidableEq V] : List (V × Bool) → V → Option Bool
  | [], _ => none
  | (w, b) :: m, v => if v = w then some b else alookup m v

/-- Update the first matching entry of an association list, the model of
assigning through `unordered_map::operator[]` / a reference obtained from
`at` when the key is present.  Absent keys are left alone. -/
def aupdate {V : Type} [DecidableEq V] : List (V × Bool) → V → Bool → List (V × Bool)
  | [], _, _ => []
  | (w, b) :: m, v, c => if v = w then (w, c) :: m else (w, b) :: aupdate m v c

/-- `Assignment` (src/include/assignment.hpp): a `VarMap` (`order`,
`vmap`) plus the `overflow` flag. -/
structure Assignment (V : Type) where
  order : List V
  vmap : List (V × Bool)
  overflow : Bool
deriving DecidableEq

/-- `Assignment::Assignment(std::vector<VarRef> vars)` of the
src/include/assignment.hpp constructor: the all-false assignment with
`overflow(false)` (`: VarMap(vars), overflow(false)`). -/
def Assignment.mkVars {V : Type} (vars : List V) : Assignment V :=
  { order := vars, vmap := vars.map (fun v => (v, false)), overflow := false }

/-- The `Assignment(vector<VarRef> vars)` constructor of
src/core/assignment.cpp, whose body sets `overflow = order.size() == 0`. -/
def Assignment.mkVarsCore {V : Type} (vars : List V) : Assignment V :=
  { order := vars, vmap := vars.map (fun v => (v, false)),
    overflow := vars.isEmpty }

/-- `VarMap::exists`: whether the variable is a key of the map. -/
def Assignment.existsVar {V : Type} [DecidableEq V] (a : Assignment V) (v : V) : Bool :=
  (alookup a.vmap v).isSome

/-- The value-read form `VarMap::operator[] const`, which throws
`std::out_of_range` on a missing key (modeled by `none`). -/
def Assignment.read {V : Type} [DecidableEq V] (a : Assignment V) (v : V) : Option Bool :=
  alookup a.vmap v

/-!
## Evaluation

`Formula::eval` (src/core/formula.cpp:461-513) runs a stack machine over
the `pn` vector from its back to its front: constants and variables push
a boolean (a variable whose value is missing from the assignment throws
`std::out_of_range`), `Not` negates the top of the stack, and each binary
node pops `lhs` and combines it with the new top.  The machine is
modeled on the reversed node list; `none` propagates the exception.
-/

/-- One step of the `Formula::eval` stack machine on node `ast` with
stack `terms` (top = head). -/
def evalStep {V : Type} [DecidableEq V] (a : Assignment V) (terms : List Bool) :
    Node V → Option (List Bool)
  | .const b => some (b :: terms)
  | .var v => (a.read v).map (· :: terms)
  | .not =>
    match terms with
    | t :: rest => some ((!t) :: rest)
    | [] => none
  | .and =>
    match terms with
    | lhs :: t :: rest => some ((lhs && t) :: rest)
    | _ => none
  | .or =>
    match terms with
    | lhs :: t :: rest => some ((lhs || t) :: rest)
    | _ => none
  | .impl =>
    match terms with
    | lhs :: t :: rest => some ((!lhs || t) :: rest)
    | _ => none
  | .eqv =>
    match terms with
    | lhs :: t :: rest => some ((lhs == t) :: rest)
    | _ => none
  | .xor =>
    match terms with
    | lhs :: t :: rest => some ((lhs != t) :: rest)
    | _ => none

/-- The loop of `Formula::eval`: process the `pn` vector from its last
element to its first (`for (unsigned int i = pn.size(); i-- > 0; )`),
i.e. fold over the reversed node list. -/
def evalRun {V : Type} [DecidableEq V] (a : Assignment V) :
    List (Node V) → List Bool → Option (List Bool)
  | [], terms => some terms
  | n :: ns, terms => (evalStep a terms n).bind (evalRun a ns)

/-- `Formula::eval(const Assignment&)`: run the machine over the whole
vector and return the single remaining term (`return terms[0]`).
`none` models the `std::out_of_range` exception thrown when a `Var`
node's variable is undefined in the assignment. -/
def Formula.eval {V : Type} [DecidableEq V] (F : Ast V) (a : Assignment V) : Option Bool :=
  (evalRun a F.preorder.reverse []).bind List.head?

/-- Structural version of strict evaluation (both operands always
evaluated, failure propagates); related to the machine below. -/
def evalT {V : Type} [DecidableEq V] (a : Assignment V) : Ast V → Option Bool
  | .const b => some b
  | .var v => a.read v
  | .not x => (evalT a x).map (!·)
  | .and l r =>
    match evalT a l, evalT a r with
    | some x, some y => some (x && y)
    | _, _ => none
  | .or l r =>
    match evalT a l, evalT a r with
    | some x, some y => some (x || y)
    | _, _ => none
  | .impl l r =>
    match evalT a l, evalT a r with
    | some x, some y => some (!x || y)
    | _, _ => none
  | .eqv l r =>
    match evalT a l, evalT a r with
    | some x, some y => some (x == y)
    | _, _ => none
  | .xor l r =>
    match evalT a l, evalT a r with
    | some x, some y => some (x != y)
    | _, _ => none

theorem evalRun_append {V : Type} [DecidableEq V] (a : Assignment V)
    (ns ms : List (Node V)) (terms : List Bool) :
    evalRun a (ns ++ ms) terms = (evalRun a ns terms).bind (evalRun a ms) := by
  induction ns generalizing terms with
  | nil => simp [evalRun]
  | cons n ns ih =>
    simp only [List.cons_append, evalRun]
    cases evalStep a terms n with
    | none => simp
    | some t => simp [ih]

/-- Bridge: running the `Formula::eval` machine over the reversed
preorder of a subtree pushes exactly the structural evaluation of that
subtree (or fails when it fails). -/
theorem evalRun_preorder {V : Type} [DecidableEq V] (a : Assignment V)
    (F : Ast V) (terms : List Bool) :
    evalRun a F.preorder.reverse terms =
      (evalT a F).map (· :: terms) := by
  induction F generalizing terms with
  | const b => simp [Ast.preorder, evalRun, evalStep, evalT]
  | var v =>
    simp only [Ast.preorder, List.reverse_singleton, evalRun, evalStep, evalT]
    cases a.read v <;> simp
  | not x ih =>
    simp only [Ast.preorder, List.reverse_cons, evalRun_append, ih, evalT]
    cases evalT a x <;> simp [evalRun, evalStep]
  | and l r ihl ihr =>
    simp only [Ast.preorder, List.reverse_cons, List.reverse_append,
      evalRun_append, ihr, evalT]
    cases evalT a r with
    | none => simp
    | some y =>
      simp only [Option.map_some, Option.some_bind, ihl]
      cases evalT a l <;> simp [evalRun, evalStep]
  | or l r ihl ihr =>
    simp only [Ast.preorder, List.reverse_cons, List.reverse_append,
      evalRun_append, ihr, evalT]
    cases evalT a r with
    | none => simp
    | some y =>
      simp only [Option.map_some, Option.some_bind, ihl]
      cases evalT a l <;> simp [evalRun, evalStep]
  | impl l r ihl ihr =>
    simp only [Ast.preorder, List.reverse_cons, List.reverse_append,
      evalRun_append, ihr, evalT]
    cases evalT a r with
    | none => simp
    | some y =>
      simp only [Option.map_some, Option.some_bind, ihl]
      cases evalT a l <;> simp [evalRun, evalStep]
  | eqv l r ihl ihr =>
    simp only [Ast.preorder, List.reverse_cons, List.reverse_append,
      evalRun_append, ihr, evalT]
    cases evalT a r with
    | none => simp
    | some y =>
      simp only [Option.map_some, Option.some_bind, ihl]
      cases evalT a l <;> simp [evalRun, evalStep]
  | xor l r ihl ihr =>
    simp only [Ast.preorder, List.reverse_cons, List.reverse_append,
      evalRun_append, ihr, evalT]
    cases evalT a r with
    | none => simp
    | some y =>
      simp only [Option.map_some, Option.some_bind, ihl]
      cases evalT a l <;> simp [evalRun, evalStep]

theorem Formula.eval_eq_evalT {V : Type} [DecidableEq V] (F : Ast V) (a : Assignment V) :
    Formula.eval F a = evalT a F := by
  rw [Formula.eval, evalRun_preorder]
  cases evalT a F <;> simp

/-- `Formula::EVAL` (src/core/formula.cpp:515-565): recursive evaluation.
`&&`, `||` and the `!lhs ||` of `Impl` short-circuit in C++, so the right
operand is not evaluated (and cannot throw) when the left operand decides
the result.  `Eqv` and `Xor` evaluate both operands. -/
def Formula.EVAL {V : Type} [DecidableEq V] (a : Assignment V) : Ast V → Option Bool
  | .const b => some b
  | .var v => a.read v
  | .not x => (Formula.EVAL a x).map (!·)
  | .and l r =>
    match Formula.EVAL a l with
    | none => none
    | some false => some false
    | some true => Formula.EVAL a r
  | .or l r =>
    match Formula.EVAL a l with
    | none => none
    | some true => some true
    | some false => Formula.EVAL a r
  | .impl l r =>
    match Formula.EVAL a l with
    | none => none
    | some false => some true
    | some true => Formula.EVAL a r
  | .eqv l r =>
    match Formula.EVAL a l, Formula.EVAL a r with
    | some x, some y => some (x == y)
    | _, _ => none
  | .xor l r =>
    match Formula.EVAL a l, Formula.EVAL a r with
    | some x, some y => some (x != y)
    | _, _ => none

/-! ### Claim C5 -/

/-- The formula `x -> y -> z` with variables numbered 0, 1, 2
(right-associative parse, see parser.t.cpp "a -> b -> c"). -/
def xyzImpl : Ast Nat := .impl (.var 0) (.impl (.var 1) (.var 2))

/-- The partial assignment `{x: false}` on variable 0. -/
def xFalse : Assignment Nat := { order := [0], vmap := [(0, false)], overflow := false }

/-- C5: the claim attributes short-circuiting to `Formula.eval`, but
`Formula::eval` (src/core/formula.cpp:461-513) is the strict stack
machine which reads the value of every `Var` node: on `x -> y -> z`
under `{x: false}` it throws `std::out_of_range` (modeled `none`)
instead of evaluating to `true`.  The short-circuit semantics the claim
(and the repository's own test t/formula.t.cpp, "implication evals to
true (short-circuit)") describes is implemented by `Formula::EVAL`,
which does return `true` here. -/
theorem C5_eval_no_short_circuit :
    Formula.eval xyzImpl xFalse = none ∧
    Formula.EVAL xFalse xyzImpl = some true := by
  constructor <;> rfl

/-!
## Association list lemmas (shared)
-/

theorem alookup_cons_ne {V : Type} [DecidableEq V] (m : List (V × Bool)) (w : V) (b : Bool)
    (v : V) (h : v ≠ w) : alookup ((w, b) :: m) v = alookup m v := by
  simp [alookup, h]

theorem aupdate_fst {V : Type} [DecidableEq V] (m : List (V × Bool)) (v : V) (b : Bool) :
    (aupdate m v b).map Prod.fst = m.map Prod.fst := by
  induction m with
  | nil => rfl
  | cons p m ih =>
    obtain ⟨w, c⟩ := p
    by_cases h : v = w <;> simp [aupdate, h, ih]

theorem alookup_aupdate_self {V : Type} [DecidableEq V] (m : List (V × Bool)) (v : V) (b : Bool)
    (h : (alookup m v).isSome) : alookup (aupdate m v b) v = some b := by
  induction m with
  | nil => simp [alookup] at h
  | cons p m ih =>
    obtain ⟨w, c⟩ := p
    by_cases hv : v = w
    · subst hv; simp [aupdate, alookup]
    · simp only [alookup, if_neg hv] at h
      simp [aupdate, alookup, hv, ih h]

theorem alookup_aupdate_ne {V : Type} [DecidableEq V] (m : List (V × Bool)) (v w : V) (b : Bool)
    (h : w ≠ v) : alookup (aupdate m v b) w = alookup m w := by
  induction m with
  | nil => rfl
  | cons p m ih =>
    obtain ⟨u, c⟩ := p
    by_cases hv : v = u
    · subst hv
      simp [aupdate, alookup, h, if_neg h]
    · by_cases hw : w = u <;> simp [aupdate, alookup, hv, hw, ih]

theorem alookup_map_false {V : Type} [DecidableEq V] (L : List V) (v : V) :
    alookup (L.map fun w => (w, false)) v = if v ∈ L then some false else none := by
  induction L with
  | nil => simp [alookup]
  | cons w L ih =>
    by_cases h : v = w
    · subst h; simp [alookup]
    · simp [alookup, h, ih, List.mem_cons]

/-!
## Simplification

`Formula::SIMPLIFY` (src/core/formula.cpp:586-687).  It recurses into a
freshly built tree (`SIMPLIFY(assign, make_unary(OP_NOT, lhs))`) in the
`Impl`/`Eqv`/`Xor` cases, so the Lean definition carries a size bound
to justify termination.
-/

/-- Number of AST nodes (`pn.size()` of the subformula). -/
def Ast.size {V : Type} : Ast V → Nat
  | .const _ => 1
  | .var _ => 1
  | .not x => 1 + x.size
  | .and l r => 1 + l.size + r.size
  | .or l r => 1 + l.size + r.size
  | .impl l r => 1 + l.size + r.size
  | .eqv l r => 1 + l.size + r.size
  | .xor l r => 1 + l.size + r.size

theorem Ast.one_le_size {V : Type} (F : Ast V) : 1 ≤ F.size := by
  cases F <;> simp [Ast.size] <;> omega

/-- The loop `while (rhsi->type == Ast::Type::Not) ++rhsi;` of the `Not`
case: step past all leading `Not` nodes of the (preorder) result.  The
elements from `rhsi` to the end form the preorder of the subtree below
the skipped negations. -/
def stripNots {V : Type} : Ast V → Ast V
  | .not x => stripNots x
  | F => F

theorem stripNots_size {V : Type} (F : Ast V) : (stripNots F).size ≤ F.size := by
  induction F with
  | not x ih => calc (stripNots (.not x)).size = (stripNots x).size := rfl
      _ ≤ x.size := ih
      _ ≤ (Ast.not x).size := by simp only [Ast.size]; omega
  | const b => exact le_refl _
  | var v => exact le_refl _
  | and l r ihl ihr => exact le_refl _
  | or l r ihl ihr => exact le_refl _
  | impl l r ihl ihr => exact le_refl _
  | eqv l r ihl ihr => exact le_refl _
  | xor l r ihl ihr => exact le_refl _

/-- The tail of the `Not` case (src/core/formula.cpp:609-617): after the
skipping loop, `if (rhsi->type == Const) return make_const(!value)`;
otherwise, since `toggles` is still `1` (the loop never updates it),
`toggles % 2 != 0` holds and a single `OP_NOT` is prepended to the
remaining vector. -/
def notOrConst {V : Type} : Ast V → Ast V
  | .const b => .const (!b)
  | s => .not s

theorem notOrConst_size {V : Type} (s : Ast V) : (notOrConst s).size ≤ 1 + s.size := by
  cases s <;> simp [notOrConst, Ast.size]

/-- The test `xxx[0].type == Ast::Type::Const` on a (simplified)
subformula vector: whether the root node is a constant. -/
def Ast.isConstNode {V : Type} : Ast V → Bool
  | .const _ => true
  | _ => false

/-- `xxx[0].value`: the payload of the root node (only consulted after
`isConstNode` succeeded). -/
def Ast.constVal {V : Type} : Ast V → Bool
  | .const b => b
  | _ => false

/-- `Formula::SIMPLIFY(const Assignment&, unsigned int root)`
(src/core/formula.cpp:586-687), together with a proof that the result
never has more nodes than the input (needed for the nested recursive
calls).  Faithful points worth noting:

* `Var`: `if (assign.exists(ref)) return make_const(assign[ref])`.
* `Not` (lines 601-618): `size_t toggles = 1;` and the loop
  `while (rhsi->type == Not) ++rhsi;` never increments `toggles`, so
  after the loop `toggles % 2 != 0` always holds and exactly one `Not`
  is re-attached regardless of how many were skipped.
* `Impl`/`Eqv`/`Xor` call `SIMPLIFY(assign, make_unary(OP_NOT, ...))`
  on an already simplified operand. -/
def simplifyAux {V : Type} [DecidableEq V] (assign : Assignment V) :
    (F : Ast V) → { G : Ast V // G.size ≤ F.size }
  | .const b => ⟨.const b, le_refl _⟩
  | .var v =>
    match h : assign.read v with
    | some b => ⟨.const b, le_refl _⟩
    | none => ⟨.var v, le_refl _⟩
  | .not x =>
    let rhs := simplifyAux assign x
    -- toggles == 1 throughout; the skipping loop does not update it,
    -- so `toggles % 2 != 0` holds and one Not is re-attached
    ⟨notOrConst (stripNots rhs.val), by
      have h1 := notOrConst_size (stripNots rhs.val)
      have h2 := stripNots_size rhs.val
      have h3 := rhs.property
      simp only [Ast.size]
      omega⟩
  | .and l r =>
    let lhs := simplifyAux assign l
    let rhs := simplifyAux assign r
    if lhs.val.isConstNode then
      if lhs.val.constVal then ⟨rhs.val, by
        have := rhs.property; simp only [Ast.size]; omega⟩
      else ⟨.const false, by have := Ast.one_le_size l; simp only [Ast.size]; omega⟩
    else if rhs.val.isConstNode then
      if rhs.val.constVal then ⟨lhs.val, by
        have := lhs.property; simp only [Ast.size]; omega⟩
      else ⟨.const false, by have := Ast.one_le_size l; simp only [Ast.size]; omega⟩
    else ⟨.and lhs.val rhs.val, by
      have := lhs.property; have := rhs.property; simp only [Ast.size]; omega⟩
  | .or l r =>
    let lhs := simplifyAux assign l
    let rhs := simplifyAux assign r
    if lhs.val.isConstNode then
      if lhs.val.constVal then ⟨.const true, by
        have := Ast.one_le_size l; simp only [Ast.size]; omega⟩
      else ⟨rhs.val, by have := rhs.property; simp only [Ast.size]; omega⟩
    else if rhs.val.isConstNode then
      if rhs.val.constVal then ⟨.const true, by
        have := Ast.one_le_size l; simp only [Ast.size]; omega⟩
      else ⟨lhs.val, by have := lhs.property; simp only [Ast.size]; omega⟩
    else ⟨.or lhs.val rhs.val, by
      have := lhs.property; have := rhs.property; simp only [Ast.size]; omega⟩
  | .impl l r =>
    let lhs := simplifyAux assign l
    let rhs := simplifyAux assign r
    if lhs.val.isConstNode then
      if lhs.val.constVal then ⟨rhs.val, by
        have := rhs.property; simp only [Ast.size]; omega⟩
      else ⟨.const true, by have := Ast.one_le_size l; simp only [Ast.size]; omega⟩
    else if rhs.val.isConstNode then
      if rhs.val.constVal then ⟨.const true, by
        have := Ast.one_le_size l; simp only [Ast.size]; omega⟩
      else
        let z := simplifyAux assign (.not lhs.val)
        ⟨z.val, by
          have := z.property
          have := lhs.property
          have := Ast.one_le_size r
          simp only [Ast.size] at *
          omega⟩
    else ⟨.impl lhs.val rhs.val, by
      have := lhs.property; have := rhs.property; simp only [Ast.size]; omega⟩
  | .eqv l r =>
    let lhs := simplifyAux assign l
    let rhs := simplifyAux assign r
    if lhs.val.isConstNode then
      if lhs.val.constVal then ⟨rhs.val, by
        have := rhs.property; simp only [Ast.size]; omega⟩
      else
        let z := simplifyAux assign (.not rhs.val)
        ⟨z.val, by
          have := z.property
          have := rhs.property
          have := Ast.one_le_size l
          simp only [Ast.size] at *
          omega⟩
    else if rhs.val.isConstNode then
      if rhs.val.constVal then ⟨lhs.val, by
        have := lhs.property; simp only [Ast.size]; omega⟩
      else
        let z := simplifyAux assign (.not lhs.val)
        ⟨z.val, by
          have := z.property
          have := lhs.property
          have := Ast.one_le_size r
          simp only [Ast.size] at *
          omega⟩
    else ⟨.eqv lhs.val rhs.val, by
      have := lhs.property; have := rhs.property; simp only [Ast.size]; omega⟩
  | .xor l r =>
    let lhs := simplifyAux assign l
    let rhs := simplifyAux assign r
    if lhs.val.isConstNode then
      if lhs.val.constVal then
        let z := simplifyAux assign (.not rhs.val)
        ⟨z.val, by
          have := z.property
          have := rhs.property
          have := Ast.one_le_size l
          simp only [Ast.size] at *
          omega⟩
      else ⟨rhs.val, by have := rhs.property; simp only [Ast.size]; omega⟩
    else if rhs.val.isConstNode then
      if rhs.val.constVal then
        let z := simplifyAux assign (.not lhs.val)
        ⟨z.val, by
          have := z.property
          have := lhs.property
          have := Ast.one_le_size r
          simp only [Ast.size] at *
          omega⟩
      else ⟨lhs.val, by have := lhs.property; simp only [Ast.size]; omega⟩
    else ⟨.xor lhs.val rhs.val, by
      have := lhs.property; have := rhs.property; simp only [Ast.size]; omega⟩
termination_by F => F.size
decreasing_by
  all_goals simp only [Ast.size]
  all_goals first
    | omega
    | (have h1 := lhs.property
       have h2 := rhs.property
       unfold lhs at h1
       unfold rhs at h2
       have h3 := Ast.one_le_size l
       have h4 := Ast.one_le_size r
       omega)

/-- `Formula::simplify(const Assignment&)` (src/include/formula.hpp):
`Formula(SIMPLIFY(assign, 0), domain)`. -/
def Formula.simplify {V : Type} [DecidableEq V] (F : Ast V) (assign : Assignment V) : Ast V :=
  (simplifyAux assign F).val

/-- `Assignment()` — the empty assignment (overflow sentinel set, which
simplification never consults). -/
def emptyAssign : Assignment Nat := { order := [], vmap := [], overflow := true }

/-- The assignment `{x: true}` on variable 0. -/
def xTrue : Assignment Nat := { order := [0], vmap := [(0, true)], overflow := false }

/-! ### Claim C3 -/

/-- C3: because the `toggles` accumulator of the `Not` case of
`Formula::SIMPLIFY` (src/core/formula.cpp:601-618) is initialized to `1`
and never incremented while the loop steps past leading `Not` nodes,
simplifying `~~x` under the empty assignment yields `~x` instead of `x`.
This contradicts the claim (`Not(Not(x))` collapses; `simplify({})` is a
semantic no-op): under `{x: true}` the original formula evaluates to
`true` but its simplification evaluates to `false`.  The sibling
implementation `Ast::Not::simplify` (src/core/ast.cpp:25-42) increments
the counter (`++toggles`), which shows the intent. -/
theorem C3_simplify_double_negation_bug :
    Formula.simplify (.not (.not (.var 0))) emptyAssign = .not (.var 0) ∧
    Formula.eval (Ast.not (.not (.var 0)) : Ast Nat) xTrue = some true ∧
    Formula.eval (Formula.simplify (.not (.not (.var 0))) emptyAssign) xTrue = some false := by
  have h : Formula.simplify (.not (.not (.var 0))) emptyAssign = .not (.var 0) := by
    simp [Formula.simplify, simplifyAux, Assignment.read, alookup, emptyAssign,
      stripNots, notOrConst]
  refine ⟨h, by rfl, ?_⟩
  rw [h]
  rfl

/-!
## Assignment negation and increment

`Assignment::operator~` and `Assignment::operator++`
(src/core/assignment.cpp:51-76).
-/

/-- The write form `VarMap::operator[]` (`bool& operator[](VarRef v)`,
src/core/assignment.cpp:78-82): a missing key is appended to `order`
and inserted into the map; then the referenced slot is assigned. -/
def Assignment.setVar {V : Type} [DecidableEq V] (a : Assignment V) (v : V) (b : Bool) :
    Assignment V :=
  if (alookup a.vmap v).isSome then
    { order := a.order, vmap := aupdate a.vmap v b, overflow := a.overflow }
  else
    { order := a.order ++ [v], vmap := a.vmap ++ [(v, b)], overflow := a.overflow }

/-- The loop of `Assignment::operator~` (src/core/assignment.cpp:51-56):
`for (auto& v : order) neg[v] = !assign.at(v);`.  `assign.at` throws on a
missing key (modeled by `none`). -/
def negLoop {V : Type} [DecidableEq V] (src : List (V × Bool)) :
    List V → Assignment V → Option (Assignment V)
  | [], acc => some acc
  | v :: vs, acc =>
    match alookup src v with
    | none => none
    | some b => negLoop src vs (acc.setVar v (!b))

/-- `Assignment::operator~` (src/core/assignment.cpp:51-56): construct
`Assignment neg(order)` through the constructor of the same file (which
sets `overflow = order.size() == 0`) and copy every bit negated. -/
def Assignment.negA {V : Type} [DecidableEq V] (a : Assignment V) : Option (Assignment V) :=
  negLoop a.vmap a.order (Assignment.mkVarsCore a.order)

/-- The loop of `Assignment::operator++` (src/core/assignment.cpp:58-70):
flip the bit of each variable in order; stop as soon as a bit becomes
true; count the completed iterations in `n`. -/
def incLoop {V : Type} [DecidableEq V] :
    List V → List (V × Bool) → Nat → Option (List (V × Bool) × Nat)
  | [], m, n => some (m, n)
  | v :: vs, m, n =>
    match alookup m v with
    | none => none
    | some old =>
      let m' := aupdate m v (!old)
      if !old then some (m', n) else incLoop vs m' (n + 1)

/-- `Assignment::operator++`: run the incrementer loop and set
`overflow = n >= assign.size()`. -/
def Assignment.inc {V : Type} [DecidableEq V] (a : Assignment V) : Option (Assignment V) :=
  (incLoop a.order a.vmap 0).map fun p =>
    { order := a.order, vmap := p.1, overflow := decide (p.1.length ≤ p.2) }

/-! ### Claim C8 -/

/-- C8 counterexample: take the one-variable assignment, increment it
twice so that it overflows back to all-false with `overflow == true`;
its negation has `overflow == false` because `operator~` rebuilds the
result through the `Assignment(vector<VarRef>)` constructor, which sets
`overflow = order.size() == 0`.  So negation does not preserve the
overflow flag, contrary to the claim. -/
theorem C8_neg_overflow_cex :
    (Assignment.mkVars [0]).inc =
      some { order := [0], vmap := [(0, true)], overflow := false } ∧
    ({ order := [0], vmap := [(0, true)], overflow := false } : Assignment Nat).inc =
      some { order := [0], vmap := [(0, false)], overflow := true } ∧
    ({ order := [0], vmap := [(0, false)], overflow := true } : Assignment Nat).overflow = true ∧
    ({ order := [0], vmap := [(0, false)], overflow := true } : Assignment Nat).negA =
      some { order := [0], vmap := [(0, true)], overflow := false } := by
  refine ⟨by rfl, by rfl, by rfl, by rfl⟩

theorem negLoop_spec {V : Type} [DecidableEq V] (src : List (V × Bool)) :
    ∀ (todo : List V) (acc : Assignment V), todo.Nodup →
    (∀ v ∈ todo, (alookup src v).isSome) →
    (∀ v ∈ todo, (alookup acc.vmap v).isSome) →
    ∃ N, negLoop src todo acc = some N ∧ N.order = acc.order ∧
      N.overflow = acc.overflow ∧
      (∀ v ∈ todo, alookup N.vmap v = (alookup src v).map (!·)) ∧
      (∀ v, v ∉ todo → alookup N.vmap v = alookup acc.vmap v) := by
  intro todo
  induction todo with
  | nil =>
    intro acc _ _ _
    exact ⟨acc, rfl, rfl, rfl, by simp, fun v _ => rfl⟩
  | cons v vs ih =>
    intro acc hnd hsrc hacc
    obtain ⟨b, hb⟩ := Option.isSome_iff_exists.mp (hsrc v (by simp))
    have haccv : (alookup acc.vmap v).isSome := hacc v (by simp)
    have hset : acc.setVar v (!b) =
        { order := acc.order, vmap := aupdate acc.vmap v (!b), overflow := acc.overflow } := by
      simp [Assignment.setVar, haccv]
    have hnd' : vs.Nodup := (List.nodup_cons.mp hnd).2
    have hv_not : v ∉ vs := (List.nodup_cons.mp hnd).1
    have hsrc' : ∀ w ∈ vs, (alookup src w).isSome := fun w hw => hsrc w (by simp [hw])
    set acc' : Assignment V :=
      { order := acc.order, vmap := aupdate acc.vmap v (!b), overflow := acc.overflow }
      with haccdef
    have hacc' : ∀ w ∈ vs, (alookup acc'.vmap w).isSome := by
      intro w hw
      have hne : w ≠ v := fun h => hv_not (h ▸ hw)
      rw [haccdef]
      simpa [alookup_aupdate_ne _ _ _ _ hne] using hacc w (by simp [hw])
    obtain ⟨N, hrun, hord, hovf, hin, hout⟩ := ih acc' hnd' hsrc' hacc'
    refine ⟨N, ?_, ?_, ?_, ?_, ?_⟩
    · simpa [negLoop, hb, hset, haccdef] using hrun
    · simpa using hord
    · simpa using hovf
    · intro w hw
      rcases List.mem_cons.mp hw with h | h
      · subst h
        rw [hout w hv_not, haccdef]
        simp [alookup_aupdate_self _ _ _ haccv, hb]
      · exact hin w h
    · intro w hw
      have hwv : w ≠ v := fun h => hw (by simp [h])
      have hwvs : w ∉ vs := fun h => hw (by simp [h])
      rw [hout w hwvs, haccdef]
      simp [alookup_aupdate_ne _ _ _ _ hwv]

theorem alookup_eq_none_of_not_mem_keys {V : Type} [DecidableEq V]
    (m : List (V × Bool)) (v : V) (h : ∀ p ∈ m, p.1 ≠ v) : alookup m v = none := by
  induction m with
  | nil => rfl
  | cons p m ih =>
    obtain ⟨w, b⟩ := p
    have hw : w ≠ v := h (w, b) (by simp)
    rw [alookup_cons_ne m w b v (Ne.symm hw)]
    exact ih fun q hq => h q (by simp [hq])

/-- C8 amended: for every well-formed assignment `A` (keys of the map
listed in `order`, no duplicates), `~A` maps each variable of `A` to the
opposite value and keeps the `vars()` order, but its overflow flag is
`order.size() == 0` — the flag of the constructor `operator~` uses — and
not in general the overflow flag of `A`. -/
theorem C8_negation_amended {V : Type} [DecidableEq V] (A : Assignment V)
    (hnd : A.order.Nodup)
    (hal : ∀ v ∈ A.order, (alookup A.vmap v).isSome)
    (hkeys : ∀ p ∈ A.vmap, p.1 ∈ A.order) :
    ∃ N, A.negA = some N ∧ N.order = A.order ∧ N.overflow = A.order.isEmpty ∧
      (∀ v, alookup N.vmap v = (alookup A.vmap v).map (!·)) := by
  have hacc : ∀ v ∈ A.order, (alookup (Assignment.mkVarsCore A.order).vmap v).isSome := by
    intro v hv
    simp [Assignment.mkVarsCore, alookup_map_false, hv]
  obtain ⟨N, hrun, hord, hovf, hin, hout⟩ :=
    negLoop_spec A.vmap A.order (Assignment.mkVarsCore A.order) hnd hal hacc
  refine ⟨N, hrun, by simpa [Assignment.mkVarsCore] using hord,
    by simpa [Assignment.mkVarsCore] using hovf, ?_⟩
  intro v
  by_cases hv : v ∈ A.order
  · exact hin v hv
  · have h1 : alookup A.vmap v = none :=
      alookup_eq_none_of_not_mem_keys _ _ fun p hp heq => hv (heq ▸ hkeys p hp)
    rw [hout v hv, h1]
    simp [Assignment.mkVarsCore, alookup_map_false, hv]

/-- Witness for C8's amended theorem at the concrete overflown
assignment from the counterexample. -/
theorem C8_negation_amended_witness :
    (([0] : List Nat).Nodup ∧
      (∀ v ∈ ([0] : List Nat), (alookup [(0, false)] v).isSome) ∧
      (∀ p ∈ [((0 : Nat), false)], p.1 ∈ ([0] : List Nat))) ∧
    ∃ N, (Assignment.negA { order := [0], vmap := [(0, false)], overflow := true }) = some N ∧
      N.order = [0] ∧ N.overflow = ([0] : List Nat).isEmpty ∧
      (∀ v, alookup N.vmap v = (alookup [((0 : Nat), false)] v).map (!·)) :=
  ⟨⟨by decide, by decide, by decide⟩,
    C8_negation_amended { order := [0], vmap := [(0, false)], overflow := true }
      (by decide) (by decide) (by decide)⟩

/-!
## Formula variables

`Formula::varnrs` (src/core/formula.cpp:436-449) walks the `pn` vector
collecting variable numbers in order of first appearance; `Formula::vars`
(src/core/formula.cpp:451-459) sorts them ascending (`std::sort`) and
unpacks them (the identity under the `VarNr` view). -/

/-- The collection loop of `Formula::varnrs`: `out` receives each new
variable number in order of first appearance (the `seen` set is the set
of elements of `out`). -/
def varnrsGo : List (Node Nat) → List Nat → List Nat
  | [], out => out
  | .var v :: ns, out => varnrsGo ns (if v ∈ out then out else out ++ [v])
  | .const _ :: ns, out => varnrsGo ns out
  | .not :: ns, out => varnrsGo ns out
  | .and :: ns, out => varnrsGo ns out
  | .or :: ns, out => varnrsGo ns out
  | .impl :: ns, out => varnrsGo ns out
  | .eqv :: ns, out => varnrsGo ns out
  | .xor :: ns, out => varnrsGo ns out

def Formula.varnrs (F : Ast Nat) : List Nat := varnrsGo F.preorder []

/-- `Formula::vars`: the variable numbers sorted ascending. -/
def Formula.vars (F : Ast Nat) : List Nat :=
  List.insertionSort (· ≤ ·) (Formula.varnrs F)

theorem varnrsGo_nodup (ns : List (Node Nat)) (out : List Nat) (h : out.Nodup) :
    (varnrsGo ns out).Nodup := by
  induction ns generalizing out with
  | nil => exact h
  | cons n ns ih =>
    cases n with
    | var v =>
      by_cases hv : v ∈ out
      · simpa [varnrsGo, hv] using ih out h
      · have h2 : (out ++ [v]).Nodup :=
          List.Nodup.append h (List.nodup_singleton v) (List.disjoint_singleton.mpr hv)
        simpa [varnrsGo, hv] using ih (out ++ [v]) h2
    | const b => simpa [varnrsGo] using ih out h
    | not => simpa [varnrsGo] using ih out h
    | and => simpa [varnrsGo] using ih out h
    | or => simpa [varnrsGo] using ih out h
    | impl => simpa [varnrsGo] using ih out h
    | eqv => simpa [varnrsGo] using ih out h
    | xor => simpa [varnrsGo] using ih out h

theorem varnrsGo_mem (ns : List (Node Nat)) (out : List Nat) (v : Nat) :
    v ∈ varnrsGo ns out ↔ v ∈ out ∨ (Node.var v) ∈ ns := by
  induction ns generalizing out with
  | nil => simp [varnrsGo]
  | cons n ns ih =>
    cases n with
    | var w =>
      by_cases hw : w ∈ out
      · by_cases hvw : v = w
        · subst hvw
          simp [varnrsGo, hw, ih, List.mem_cons, hw]
        · simp [varnrsGo, hw, ih, List.mem_cons, hvw]
      · by_cases hvw : v = w
        · subst hvw
          simp [varnrsGo, hw, ih, List.mem_cons]
        · simp [varnrsGo, hw, ih, List.mem_cons, hvw]
    | const b => simp [varnrsGo, ih]
    | not => simp [varnrsGo, ih]
    | and => simp [varnrsGo, ih]
    | or => simp [varnrsGo, ih]
    | impl => simp [varnrsGo, ih]
    | eqv => simp [varnrsGo, ih]
    | xor => simp [varnrsGo, ih]

theorem Formula.vars_nodup (F : Ast Nat) : (Formula.vars F).Nodup :=
  (List.perm_insertionSort _ _).nodup_iff.mpr (varnrsGo_nodup _ _ List.nodup_nil)

theorem Formula.mem_vars (F : Ast Nat) (v : Nat) :
    v ∈ Formula.vars F ↔ (Node.var v) ∈ F.preorder := by
  rw [Formula.vars, (List.perm_insertionSort _ _).mem_iff, Formula.varnrs, varnrsGo_mem]
  simp

/-!
## Truthtable (src/include/truthtable.hpp)

The stream starts from `Assignment(fm.vars())` (all-false, not
overflown), yields `(assigned, eval)` pairs and increments until the
assignment overflows.
-/

/-- The little-endian counter map: variable `i` of the order holds bit
`i` of `k` (first variable is the least significant bit). -/
def counterVmap : List Nat → Nat → List (Nat × Bool)
  | [], _ => []
  | v :: vs, k => (v, k % 2 == 1) :: counterVmap vs (k / 2)

/-- The assignment holding the `k`-th counter value over order `L`. -/
def counterAsg (L : List Nat) (k : Nat) : Assignment Nat :=
  { order := L, vmap := counterVmap L k, overflow := false }

theorem counterVmap_zero (L : List Nat) : counterVmap L 0 = L.map fun v => (v, false) := by
  induction L with
  | nil => rfl
  | cons v vs ih => simp [counterVmap, ih]

theorem counterVmap_length (L : List Nat) (k : Nat) : (counterVmap L k).length = L.length := by
  induction L generalizing k with
  | nil => rfl
  | cons v vs ih => simp [counterVmap, ih]

theorem counterVmap_pow (L : List Nat) : counterVmap L (2 ^ L.length) = counterVmap L 0 := by
  suffices h : ∀ (L : List Nat) (j : Nat), L.length ≤ j → counterVmap L (2 ^ j) = counterVmap L 0 by
    exact h L L.length le_rfl
  intro L
  induction L with
  | nil => intro j _; rfl
  | cons v vs ih =>
    intro j hj
    cases j with
    | zero => simp at hj
    | succ j =>
      have h2 : (2 ^ (j + 1)) % 2 = 0 := by
        simp [Nat.pow_succ, Nat.mul_mod_left]
      have h3 : (2 ^ (j + 1)) / 2 = 2 ^ j := by
        rw [Nat.pow_succ]
        omega
      have h4 := ih j (by simpa using hj)
      simp [counterVmap, h2, h3, h4]

theorem alookup_counterVmap_isSome (L : List Nat) (k : Nat) (v : Nat) (h : v ∈ L) :
    (alookup (counterVmap L k) v).isSome := by
  induction L generalizing k with
  | nil => simp at h
  | cons w vs ih =>
    by_cases hv : v = w
    · subst hv; simp [counterVmap, alookup]
    · rcases List.mem_cons.mp h with h1 | h1
      · exact absurd h1 hv
      · simpa [counterVmap, alookup, hv] using ih (k / 2) h1

/-- Unfolding of one iteration of the incrementer loop. -/
theorem incLoop_cons {V : Type} [DecidableEq V] (v : V) (vs : List V)
    (m : List (V × Bool)) (c : Nat) :
    incLoop (v :: vs) m c =
      match alookup m v with
      | none => none
      | some old =>
        if (!old) then some (aupdate m v (!old), c)
        else incLoop vs (aupdate m v (!old)) (c + 1) := rfl

/-- The incrementer loop is transparent over a leading entry whose key
is not among the remaining loop variables. -/
theorem incLoop_cons_ne {V : Type} [DecidableEq V] (vs : List V) (v : V) (b : Bool)
    (M : List (V × Bool)) (c : Nat) (hv : v ∉ vs) :
    incLoop vs ((v, b) :: M) c = (incLoop vs M c).map fun p => ((v, b) :: p.1, p.2) := by
  induction vs generalizing M c with
  | nil => rfl
  | cons w ws ih =>
    have hwv : w ≠ v := fun h => hv (by simp [h])
    have hv' : v ∉ ws := fun h => hv (by simp [h])
    have h1 : alookup ((v, b) :: M) w = alookup M w := alookup_cons_ne M v b w hwv
    have h2 : ∀ x, aupdate ((v, b) :: M) w x = (v, b) :: aupdate M w x := by
      intro x
      simp [aupdate, hwv]
    simp only [incLoop, h1]
    cases alookup M w with
    | none => rfl
    | some old =>
      by_cases hold : old <;> simp [hold, h2, ih _ _ hv']

/-- Behaviour of the incrementer loop on a counter assignment: it
produces the next counter value; the iteration count `n` reaches the
number of variables exactly at the wrap-around. -/
theorem incLoop_counter (L : List Nat) (hnd : L.Nodup) :
    ∀ (k c : Nat), k < 2 ^ L.length →
    ∃ n, incLoop L (counterVmap L k) c = some (counterVmap L (k + 1), c + n) ∧
      n ≤ L.length ∧ (n = L.length ↔ k + 1 = 2 ^ L.length) := by
  induction L with
  | nil =>
    intro k c hk
    have hk0 : k = 0 := by simpa using hk
    subst hk0
    exact ⟨0, by simp [incLoop, counterVmap], le_rfl, by simp⟩
  | cons v vs ih =>
    intro k c hk
    have hv_not : v ∉ vs := (List.nodup_cons.mp hnd).1
    have hnd' : vs.Nodup := (List.nodup_cons.mp hnd).2
    have hlen : (v :: vs).length = vs.length + 1 := rfl
    rcases Nat.even_or_odd k with he | ho
    · -- k even: the first bit flips to true and the loop breaks with n = 0
      obtain ⟨j, hj⟩ := he
      subst hj
      have hm0 : (j + j) % 2 = 0 := by omega
      have hm1 : (j + j + 1) % 2 = 1 := by omega
      have hbit : ((j + j) % 2 == 1) = false := by rw [hm0]; rfl
      have hbit1 : ((j + j + 1) % 2 == 1) = true := by rw [hm1]; rfl
      have hdiv : (j + j + 1) / 2 = (j + j) / 2 := by omega
      refine ⟨0, ?_, by simp, ?_⟩
      · have e1 : counterVmap (v :: vs) (j + j) = (v, false) :: counterVmap vs ((j + j) / 2) := by
          simp [counterVmap, hbit]
        have halk : alookup ((v, false) :: counterVmap vs ((j + j) / 2)) v = some false := by
          simp [alookup]
        have haup : aupdate ((v, false) :: counterVmap vs ((j + j) / 2)) v true =
            (v, true) :: counterVmap vs ((j + j) / 2) := by
          simp [aupdate]
        have e3 : counterVmap (v :: vs) (j + j + 1) =
            (v, true) :: counterVmap vs ((j + j) / 2) := by
          simp [counterVmap, hbit1, hdiv]
        rw [e1, e3, incLoop_cons, halk]
        simp [haup]
      · constructor
        · intro h; simp [hlen] at h
        · intro h
          exfalso
          have h2 : (2 : Nat) ∣ 2 ^ (vs.length + 1) := dvd_pow_self 2 (by omega)
          rw [hlen] at h
          omega
    · -- k odd: the first bit flips to false and the loop continues
      obtain ⟨j, hj⟩ := ho
      subst hj
      have hm1 : (2 * j + 1) % 2 = 1 := by omega
      have hm0 : (2 * j + 1 + 1) % 2 = 0 := by omega
      have hbit : ((2 * j + 1) % 2 == 1) = true := by rw [hm1]; rfl
      have hbit1 : ((2 * j + 1 + 1) % 2 == 1) = false := by rw [hm0]; rfl
      have hdivk : (2 * j + 1) / 2 = j := by omega
      have hdiv1 : (2 * j + 1 + 1) / 2 = j + 1 := by omega
      have hk2 : j < 2 ^ vs.length := by
        rw [hlen, Nat.pow_succ] at hk
        omega
      obtain ⟨n, hrun, hle, hiff⟩ := ih hnd' j (c + 1) hk2
      refine ⟨n + 1, ?_, by rw [hlen]; omega, ?_⟩
      · have e1 : counterVmap (v :: vs) (2 * j + 1) = (v, true) :: counterVmap vs j := by
          simp [counterVmap, hbit, hdivk]
        have e2 : incLoop (v :: vs) ((v, true) :: counterVmap vs j) c =
            incLoop vs ((v, false) :: counterVmap vs j) (c + 1) := by
          have halk : alookup ((v, true) :: counterVmap vs j) v = some true := by
            simp [alookup]
          have haup : aupdate ((v, true) :: counterVmap vs j) v false =
              (v, false) :: counterVmap vs j := by
            simp [aupdate]
          rw [incLoop_cons, halk]
          simp [haup]
        rw [e1, e2, incLoop_cons_ne vs v false _ _ hv_not, hrun]
        have e3 : counterVmap (v :: vs) (2 * j + 1 + 1) = (v, false) :: counterVmap vs (j + 1) := by
          simp [counterVmap, hbit1, hdiv1]
        rw [e3]
        simp only [Option.map_some']
        congr 2
        omega
      · rw [hlen]
        constructor
        · intro h
          have hn : n = vs.length := by omega
          have h2 := hiff.mp hn
          rw [Nat.pow_succ]
          omega
        · intro h
          rw [Nat.pow_succ] at h
          have h2 : j + 1 = 2 ^ vs.length := by omega
          have := hiff.mpr h2
          omega

/-- `Truthtable` iteration (src/include/truthtable.hpp): while the
assignment has not overflown, yield the pair
`(assigned, fm.eval(assigned))` and increment; `fuel` bounds the number
of loop iterations (`none` would signal a thrown exception from
`operator++`, which never fires on well-formed states). -/
def ttRun (F : Ast Nat) : Nat → Assignment Nat → Option (List (Assignment Nat × Option Bool))
  | 0, _ => some []
  | fuel + 1, a =>
    if a.overflow then some []
    else
      match a.inc with
      | none => none
      | some a' => (ttRun F fuel a').map fun rest => (a, Formula.eval F a) :: rest

theorem ttRun_overflow (F : Ast Nat) (fuel : Nat) (a : Assignment Nat)
    (h : a.overflow = true) : ttRun F fuel a = some [] := by
  cases fuel <;> simp [ttRun, h]

theorem inc_counterAsg (L : List Nat) (hnd : L.Nodup) (k : Nat) (hk : k < 2 ^ L.length) :
    (counterAsg L k).inc =
      some { order := L, vmap := counterVmap L (k + 1),
             overflow := decide (k + 1 = 2 ^ L.length) } := by
  obtain ⟨n, hrun, hle, hiff⟩ := incLoop_counter L hnd k 0 hk
  have hn0 : (0 : Nat) + n = n := by omega
  rw [hn0] at hrun
  have hovf : decide ((counterVmap L (k + 1)).length ≤ n) = decide (k + 1 = 2 ^ L.length) := by
    rw [counterVmap_length]
    apply decide_eq_decide.mpr
    constructor
    · intro h; exact hiff.mp (le_antisymm hle h)
    · intro h; exact le_of_eq (hiff.mpr h).symm
  simp only [Assignment.inc, counterAsg, hrun]
  rw [show Option.map (fun p : List (Nat × Bool) × Nat =>
      ({ order := L, vmap := p.1, overflow := decide (p.1.length ≤ p.2) } : Assignment Nat))
      (some (counterVmap L (k + 1), n)) =
    some { order := L, vmap := counterVmap L (k + 1),
           overflow := decide ((counterVmap L (k + 1)).length ≤ n) } from rfl]
  rw [hovf]

theorem ttRun_succ (F : Ast Nat) (fuel : Nat) (a : Assignment Nat) :
    ttRun F (fuel + 1) a =
      if a.overflow then some []
      else
        match a.inc with
        | none => none
        | some a' => (ttRun F fuel a').map fun rest => (a, Formula.eval F a) :: rest := rfl

theorem ttRun_chain (F : Ast Nat) (L : List Nat) (hnd : L.Nodup) :
    ∀ (j : Nat), 1 ≤ j → ∀ (k : Nat), k + j = 2 ^ L.length →
    ttRun F (j + 1) (counterAsg L k) =
      some ((List.range' k j).map fun i =>
        (counterAsg L i, Formula.eval F (counterAsg L i))) := by
  intro j
  induction j with
  | zero => omega
  | succ j ihj =>
    intro _ k hk
    have hklt : k < 2 ^ L.length := by omega
    have hinc := inc_counterAsg L hnd k hklt
    have hof : (counterAsg L k).overflow = false := rfl
    cases j with
    | zero =>
      -- last row: the increment wraps around and sets the overflow flag
      have hk1 : k + 1 = 2 ^ L.length := by omega
      have hdec : decide (k + 1 = 2 ^ L.length) = true := by simp [hk1]
      rw [ttRun_succ, hinc, hof]
      simp only [Bool.false_eq_true, if_false, hdec]
      rw [ttRun_overflow F _ _ rfl]
      simp [List.range']
    | succ j =>
      have hk1 : k + 1 + (j + 1) = 2 ^ L.length := by omega
      have hdec : decide (k + 1 = 2 ^ L.length) = false := by
        simp only [decide_eq_false_iff_not]
        omega
      have hrec := ihj (by omega) (k + 1) hk1
      rw [ttRun_succ, hinc, hof]
      simp only [Bool.false_eq_true, if_false, hdec]
      rw [show ({ order := L, vmap := counterVmap L (k + 1), overflow := false } :
        Assignment Nat) = counterAsg L (k + 1) from rfl]
      rw [hrec]
      simp [List.range']

/-- Strict evaluation succeeds whenever every variable of the formula is
defined in the assignment. -/
theorem evalT_isSome {V : Type} [DecidableEq V] (a : Assignment V) (F : Ast V)
    (h : ∀ v, (Node.var v) ∈ F.preorder → (a.read v).isSome) : (evalT a F).isSome := by
  induction F with
  | const b => simp [evalT]
  | var v => exact h v (by simp [Ast.preorder])
  | not x ih =>
    obtain ⟨b, hb⟩ := Option.isSome_iff_exists.mp
      (ih fun v hv => h v (by simp [Ast.preorder, hv]))
    simp [evalT, hb]
  | and l r ihl ihr =>
    obtain ⟨x1, h1⟩ := Option.isSome_iff_exists.mp
      (ihl fun v hv => h v (by simp [Ast.preorder, hv]))
    obtain ⟨x2, h2⟩ := Option.isSome_iff_exists.mp
      (ihr fun v hv => h v (by simp [Ast.preorder, hv]))
    simp [evalT, h1, h2]
  | or l r ihl ihr =>
    obtain ⟨x1, h1⟩ := Option.isSome_iff_exists.mp
      (ihl fun v hv => h v (by simp [Ast.preorder, hv]))
    obtain ⟨x2, h2⟩ := Option.isSome_iff_exists.mp
      (ihr fun v hv => h v (by simp [Ast.preorder, hv]))
    simp [evalT, h1, h2]
  | impl l r ihl ihr =>
    obtain ⟨x1, h1⟩ := Option.isSome_iff_exists.mp
      (ihl fun v hv => h v (by simp [Ast.preorder, hv]))
    obtain ⟨x2, h2⟩ := Option.isSome_iff_exists.mp
      (ihr fun v hv => h v (by simp [Ast.preorder, hv]))
    simp [evalT, h1, h2]
  | eqv l r ihl ihr =>
    obtain ⟨x1, h1⟩ := Option.isSome_iff_exists.mp
      (ihl fun v hv => h v (by simp [Ast.preorder, hv]))
    obtain ⟨x2, h2⟩ := Option.isSome_iff_exists.mp
      (ihr fun v hv => h v (by simp [Ast.preorder, hv]))
    simp [evalT, h1, h2]
  | xor l r ihl ihr =>
    obtain ⟨x1, h1⟩ := Option.isSome_iff_exists.mp
      (ihl fun v hv => h v (by simp [Ast.preorder, hv]))
    obtain ⟨x2, h2⟩ := Option.isSome_iff_exists.mp
      (ihr fun v hv => h v (by simp [Ast.preorder, hv]))
    simp [evalT, h1, h2]

/-! ### Claim C6 -/

/-- C6: the truthtable stream of `F` yields exactly `2 ^ |F.vars()|`
pairs, iterating the assignments over `F.vars()` as a little-endian
counter from all-false until overflow, pairing each assignment with the
formula's value (evaluation never throws on these total assignments);
for a formula without variables it yields exactly one pair, the empty
assignment and the formula's value. -/
theorem C6_truthtable_counter (F : Ast Nat) :
    ttRun F (2 ^ (Formula.vars F).length + 1) (Assignment.mkVars (Formula.vars F)) =
      some ((List.range (2 ^ (Formula.vars F).length)).map fun k =>
        (counterAsg (Formula.vars F) k, Formula.eval F (counterAsg (Formula.vars F) k))) ∧
    (∀ k, (Formula.eval F (counterAsg (Formula.vars F) k)).isSome) ∧
    (Formula.vars F = [] →
      ttRun F 2 (Assignment.mkVars []) =
        some [(Assignment.mkVars [], Formula.eval F (Assignment.mkVars []))]) := by
  have hnd := Formula.vars_nodup F
  have hmk : Assignment.mkVars (Formula.vars F) = counterAsg (Formula.vars F) 0 := by
    simp [Assignment.mkVars, counterAsg, counterVmap_zero]
  have hev : ∀ k, (Formula.eval F (counterAsg (Formula.vars F) k)).isSome := by
    intro k
    rw [Formula.eval_eq_evalT]
    refine evalT_isSome _ _ fun v hv => ?_
    have hvL : v ∈ Formula.vars F := (Formula.mem_vars F v).mpr hv
    simpa [Assignment.read, counterAsg] using
      alookup_counterVmap_isSome (Formula.vars F) k v hvL
  refine ⟨?_, hev, ?_⟩
  · rw [hmk]
    have := ttRun_chain F (Formula.vars F) hnd (2 ^ (Formula.vars F).length)
      (Nat.one_le_two_pow) 0 (by omega)
    rw [this]
    rw [List.range_eq_range']
  · intro h0
    have h1 : (Formula.vars F).length = 0 := by simp [h0]
    have h2 := ttRun_chain F (Formula.vars F) hnd 1 le_rfl 0 (by simp [h1])
    rw [h0] at h2
    have h3 : counterAsg ([] : List Nat) 0 = Assignment.mkVars [] := by
      simp [counterAsg, Assignment.mkVars, counterVmap]
    simpa [List.range', h3] using h2

/-!
## Domain / Cache (src/include/domain.hpp, src/core/domain.cpp)

`VarRef` is a pointer to a `Variable` owned by the cache; the model uses
`Nat` identities.  A freshly allocated `Variable` lives at an address
distinct from every pointer previously observed by the cache, which the
model realises with the `nextRef` high-water mark (`pack` of a foreign
pointer raises the mark past it).  `unordered_map::insert` never
overwrites an existing key; lookups return the first (only) insertion.
-/

/-- Generic first-match association-list lookup (`unordered_map::find`). -/
def assocFind {α β : Type} [DecidableEq α] : List (α × β) → α → Option β
  | [], _ => none
  | (a, b) :: l, x => if x = a then some b else assocFind l x

theorem assocFind_append_of_some {α β : Type} [DecidableEq α]
    (l₁ l₂ : List (α × β)) (x : α) (b : β) (h : assocFind l₁ x = some b) :
    assocFind (l₁ ++ l₂) x = some b := by
  induction l₁ with
  | nil => simp [assocFind] at h
  | cons p l ih =>
    obtain ⟨a, c⟩ := p
    by_cases hx : x = a
    · subst hx
      simpa [assocFind] using h
    · simp only [assocFind, if_neg hx] at h ⊢
      simpa [List.cons_append, assocFind, hx] using ih h

theorem assocFind_append_of_none {α β : Type} [DecidableEq α]
    (l₁ l₂ : List (α × β)) (x : α) (h : assocFind l₁ x = none) :
    assocFind (l₁ ++ l₂) x = assocFind l₂ x := by
  induction l₁ with
  | nil => simp
  | cons p l ih =>
    obtain ⟨a, c⟩ := p
    by_cases hx : x = a
    · simp [assocFind, hx] at h
    · simp only [assocFind, if_neg hx] at h
      simpa [List.cons_append, assocFind, hx] using ih h

/-- The errors of the domain layer: `X::Cache::Frozen` and
`X::Domain::InvalidVarNr`. -/
inductive CacheErr where
  | frozen
  | invalidVarNr
deriving DecidableEq

/-- The private state of `Cache` (src/include/domain.hpp:153-181):
the owned variables (by name, in allocation order), the three lookup
structures, and the `frozen` flag.  `nextRef` is the pointer-freshness
mark described above. -/
structure Cache where
  cache : List String
  by_name : List (String × Nat)
  by_nr : List Nat
  by_ref : List (Nat × Nat)
  frozen : Bool
  nextRef : Nat
deriving DecidableEq

def Cache.init : Cache :=
  { cache := [], by_name := [], by_nr := [], by_ref := [], frozen := false, nextRef := 0 }

/-- The mutation core of `Cache::new_variable`/`put_variable`
(src/core/domain.cpp:29-49), after the `frozen` check: allocate the
`Variable`, push it onto `cache`, insert into `by_name`, push onto
`by_nr`, compute `nr = by_nr.size()` and insert into `by_ref`. -/
def Cache.newVarUnchecked (S : Cache) (name : String) : Nat × Nat × Cache :=
  let var := S.nextRef
  let by_nr' := S.by_nr ++ [var]
  let nr := by_nr'.length
  (nr, var,
    { cache := S.cache ++ [name],
      by_name := if (assocFind S.by_name name).isSome then S.by_name
                 else S.by_name ++ [(name, var)],
      by_nr := by_nr',
      by_ref := if (assocFind S.by_ref var).isSome then S.by_ref
                else S.by_ref ++ [(var, nr)],
      frozen := S.frozen,
      nextRef := var + 1 })

/-- `Cache::new_variable` (src/core/domain.cpp:29-34): throws `Frozen`
when the cache is frozen, otherwise allocates. -/
def Cache.newVariable (S : Cache) (name : String) : Except CacheErr (Nat × Nat × Cache) :=
  if S.frozen then .error .frozen else .ok (S.newVarUnchecked name)

/-- `Cache::resolve` (src/core/domain.cpp:51-63). -/
def Cache.resolve (S : Cache) (name : String) : Except CacheErr (Nat × Cache) :=
  match assocFind S.by_name name with
  | some var => .ok (var, S)
  | none => (S.newVariable name).map fun p => (p.2.1, p.2.2)

/-- `Cache::pack` (src/core/domain.cpp:65-68): `return by_ref[var];` —
`unordered_map::operator[]` default-constructs `VarNr() == 0` for an
absent key and inserts it.  (The freshness mark moves past the foreign
pointer: a later `Variable` allocation never reuses the address of a
pointer the cache has already stored.) -/
def Cache.pack (S : Cache) (var : Nat) : Nat × Cache :=
  match assocFind S.by_ref var with
  | some nr => (nr, S)
  | none =>
    (0, { S with by_ref := S.by_ref ++ [(var, 0)],
                 nextRef := max S.nextRef (var + 1) })

/-- The loop of `Cache::unpack` (src/core/domain.cpp:76-79):
`while (max < nr) new_variable(to_string(max + 1))`. -/
def Cache.growTo (S : Cache) (nr : Nat) : Except CacheErr Cache :=
  if S.cache.length < nr then
    if S.frozen then .error .frozen
    else Cache.growTo (S.newVarUnchecked (toString (S.cache.length + 1))).2.2 nr
  else .ok S
termination_by nr - S.cache.length
decreasing_by
  simp only [Cache.newVarUnchecked, List.length_append, List.length_cons, List.length_nil]
  omega

/-- `Cache::unpack` (src/core/domain.cpp:70-81): `nr == 0` throws
`InvalidVarNr`; otherwise auto-vivify up to `nr` variables and return
`by_nr[nr - 1]`. -/
def Cache.unpack (S : Cache) (nr : Nat) : Except CacheErr (Nat × Cache) :=
  if nr = 0 then .error .invalidVarNr
  else (S.growTo nr).map fun S' => (S'.by_nr.getD (nr - 1) 0, S')

/-- Result state of `resolve` (the state is unchanged when it throws). -/
def Cache.resolveState (S : Cache) (name : String) : Cache :=
  match S.resolve name with
  | .error _ => S
  | .ok p => p.2

/-- Result state of `unpack` (the state is unchanged when it throws:
`new_variable` throws before any mutation). -/
def Cache.unpackState (S : Cache) (nr : Nat) : Cache :=
  match S.unpack nr with
  | .error _ => S
  | .ok p => p.2

/-- One public operation on a shared `Cache`. -/
inductive Cache.Step : Cache → Cache → Prop where
  | resolve (S : Cache) (name : String) : Cache.Step S (S.resolveState name)
  | pack (S : Cache) (var : Nat) : Cache.Step S (S.pack var).2
  | unpack (S : Cache) (nr : Nat) : Cache.Step S (S.unpackState nr)
  | freeze (S : Cache) : Cache.Step S { S with frozen := true }
  | thaw (S : Cache) : Cache.Step S { S with frozen := false }

/-- A cache state reachable from a freshly constructed `Cache` by any
sequence of public operations. -/
def Cache.Reachable (S : Cache) : Prop :=
  Relation.ReflTransGen Cache.Step Cache.init S

/-- The internal consistency invariant of `Cache`. -/
structure Cache.Inv (S : Cache) : Prop where
  len_nr : S.by_nr.length = S.cache.length
  nr_lt : ∀ r ∈ S.by_nr, r < S.nextRef
  ref_keys_lt : ∀ p ∈ S.by_ref, p.1 < S.nextRef
  nr_ref : ∀ i (h : i < S.by_nr.length), assocFind S.by_ref (S.by_nr.get ⟨i, h⟩) = some (i + 1)

theorem Cache.Inv.init : Cache.Inv Cache.init := by
  refine ⟨rfl, ?_, ?_, ?_⟩ <;> simp [Cache.init]

theorem Cache.newVarUnchecked_inv (S : Cache) (name : String) (hS : Cache.Inv S) :
    Cache.Inv (S.newVarUnchecked name).2.2 ∧
    (S.newVarUnchecked name).2.2.by_ref = S.by_ref ++ [(S.nextRef, S.by_nr.length + 1)] := by
  have hfind : assocFind S.by_ref S.nextRef = none := by
    cases h : assocFind S.by_ref S.nextRef with
    | none => rfl
    | some nr =>
      exfalso
      -- a key equal to nextRef would contradict ref_keys_lt
      have : ∀ (l : List (Nat × Nat)) (x : Nat) (b : Nat), assocFind l x = some b →
          ∃ p ∈ l, p.1 = x := by
        intro l
        induction l with
        | nil => intro x b hx; simp [assocFind] at hx
        | cons p l ih =>
          intro x b hx
          by_cases hxx : x = p.1
          · exact ⟨p, by simp, hxx.symm⟩
          · obtain ⟨q, hq, hq2⟩ := ih x b (by
              obtain ⟨a, c⟩ := p
              simpa [assocFind, hxx] using hx)
            exact ⟨q, by simp [hq], hq2⟩
      obtain ⟨p, hp, hp2⟩ := this _ _ _ h
      have := hS.ref_keys_lt p hp
      omega
  constructor
  · constructor
    · simp [Cache.newVarUnchecked, hS.len_nr]
    · intro r hr
      simp only [Cache.newVarUnchecked, List.mem_append, List.mem_singleton] at hr
      rcases hr with hr | hr
      · have := hS.nr_lt r hr
        simp only [Cache.newVarUnchecked]
        omega
      · simp only [Cache.newVarUnchecked]
        omega
    · intro p hp
      simp only [Cache.newVarUnchecked, hfind, Option.isSome_none, Bool.false_eq_true,
        if_false, List.mem_append, List.mem_singleton] at hp
      rcases hp with hp | hp
      · have := hS.ref_keys_lt p hp
        simp only [Cache.newVarUnchecked]
        omega
      · simp only [Cache.newVarUnchecked, hp]
        omega
    · intro i hilt
      simp only [Cache.newVarUnchecked, hfind, Option.isSome_none, Bool.false_eq_true,
        if_false] at hilt ⊢
      rw [List.length_append, List.length_singleton] at hilt
      by_cases hi : i < S.by_nr.length
      · have hget : (S.by_nr ++ [S.nextRef]).get ⟨i, by simpa using hilt⟩ =
            S.by_nr.get ⟨i, hi⟩ := by
          rw [List.get_append_left]
        rw [hget]
        exact assocFind_append_of_some _ _ _ _ (hS.nr_ref i hi)
      · have hieq : i = S.by_nr.length := by omega
        subst hieq
        have hget : (S.by_nr ++ [S.nextRef]).get ⟨S.by_nr.length, by simpa using hilt⟩ =
            S.nextRef := by
          rw [List.get_append_right] <;> simp
        rw [hget, assocFind_append_of_none _ _ _ hfind]
        simp [assocFind]
  · simp [Cache.newVarUnchecked, hfind]

theorem Cache.pack_inv (S : Cache) (var : Nat) (hS : Cache.Inv S) :
    Cache.Inv (S.pack var).2 ∧ ∃ t, (S.pack var).2.by_ref = S.by_ref ++ t := by
  rw [Cache.pack]
  cases h : assocFind S.by_ref var with
  | some nr => exact ⟨hS, [], by simp⟩
  | none =>
    refine ⟨⟨by simpa using hS.len_nr, ?_, ?_, ?_⟩, [(var, 0)], by simp⟩
    · intro r hr
      simp only at hr
      have := hS.nr_lt r hr
      simp only
      omega
    · intro p hp
      simp only [List.mem_append, List.mem_singleton] at hp
      rcases hp with hp | hp
      · have := hS.ref_keys_lt p hp
        simp only
        omega
      · simp only [hp]
        omega
    · intro i hilt
      simp only at hilt ⊢
      exact assocFind_append_of_some _ _ _ _ (hS.nr_ref i hilt)

theorem Cache.growTo_inv (S : Cache) (nr : Nat) (hS : Cache.Inv S) :
    ∀ S', S.growTo nr = .ok S' → Cache.Inv S' ∧ ∃ t, S'.by_ref = S.by_ref ++ t := by
  by_cases hlt : S.cache.length < nr
  · by_cases hf : S.frozen
    · intro S' hS'
      rw [Cache.growTo, if_pos hlt, if_pos hf] at hS'
      cases hS'
    · intro S' hS'
      rw [Cache.growTo, if_pos hlt, if_neg hf] at hS'
      obtain ⟨hinv, hext⟩ := Cache.newVarUnchecked_inv S (toString (S.cache.length + 1)) hS
      obtain ⟨hinv', t, ht⟩ := Cache.growTo_inv _ nr hinv S' hS'
      exact ⟨hinv', ⟨[(S.nextRef, S.by_nr.length + 1)] ++ t, by
        rw [ht, hext, List.append_assoc]⟩⟩
  · intro S' hS'
    rw [Cache.growTo, if_neg hlt] at hS'
    cases hS'
    exact ⟨hS, [], by simp⟩
termination_by nr - S.cache.length
decreasing_by
  simp only [Cache.newVarUnchecked, List.length_append, List.length_cons, List.length_nil]
  omega

/-- Every public operation preserves the invariant and only appends to
`by_ref`. -/
theorem Cache.step_inv {S S' : Cache} (h : Cache.Step S S') (hS : Cache.Inv S) :
    Cache.Inv S' ∧ ∃ t, S'.by_ref = S.by_ref ++ t := by
  cases h with
  | resolve name =>
    rw [Cache.resolveState, Cache.resolve]
    cases hn : assocFind S.by_name name with
    | some var => exact ⟨hS, [], by simp⟩
    | none =>
      rw [Cache.newVariable]
      by_cases hf : S.frozen
      · simp only [hf, if_true]
        exact ⟨hS, [], by simp [Except.map]⟩
      · simp only [hf, Bool.false_eq_true, if_false]
        obtain ⟨hinv, hext⟩ := Cache.newVarUnchecked_inv S name hS
        exact ⟨hinv, [(S.nextRef, S.by_nr.length + 1)], hext⟩
  | pack var => exact Cache.pack_inv S var hS
  | unpack nr =>
    rw [Cache.unpackState, Cache.unpack]
    by_cases h0 : nr = 0
    · simp only [h0, if_pos rfl]
      exact ⟨hS, [], by simp⟩
    · simp only [if_neg h0]
      cases hg : S.growTo nr with
      | error e => exact ⟨hS, [], by simp [Except.map]⟩
      | ok S₂ =>
        obtain ⟨hinv, t, ht⟩ := Cache.growTo_inv S nr hS S₂ hg
        exact ⟨hinv, t, ht⟩
  | freeze => exact ⟨⟨hS.len_nr, hS.nr_lt, hS.ref_keys_lt, hS.nr_ref⟩, [], by simp⟩
  | thaw => exact ⟨⟨hS.len_nr, hS.nr_lt, hS.ref_keys_lt, hS.nr_ref⟩, [], by simp⟩

theorem Cache.reachable_inv {S : Cache} (h : Cache.Reachable S) : Cache.Inv S := by
  induction h with
  | refl => exact Cache.Inv.init
  | tail hsteps hstep ih => exact (Cache.step_inv hstep ih).1

/-! ### Claim C7 -/

/-- C7: in every reachable `Cache` state, `unpack(pack(v)) == v` for
every allocated variable `v` (an element of `by_nr`, i.e. of `list()`),
`pack(unpack(n)) == n` for every `1 ≤ n ≤ size()` — both without
changing the cache — and `unpack(0)` throws `InvalidVarNr`. -/
theorem C7_domain_bijection (S : Cache) (h : Cache.Reachable S) :
    (∀ v ∈ S.by_nr, ∃ nr, S.pack v = (nr, S) ∧ S.unpack nr = .ok (v, S)) ∧
    (∀ n, 1 ≤ n → n ≤ S.cache.length →
      ∃ v, S.unpack n = .ok (v, S) ∧ S.pack v = (n, S)) ∧
    S.unpack 0 = .error .invalidVarNr := by
  have hinv := Cache.reachable_inv h
  have hgrow : ∀ n, n ≤ S.cache.length → S.growTo n = .ok S := by
    intro n hn
    rw [Cache.growTo, if_neg (by omega)]
  refine ⟨?_, ?_, by rw [Cache.unpack]; rfl⟩
  · intro v hv
    obtain ⟨⟨i, hi⟩, hget⟩ := List.mem_iff_get.mp hv
    have hfind := hinv.nr_ref i hi
    rw [hget] at hfind
    refine ⟨i + 1, by rw [Cache.pack, hfind], ?_⟩
    rw [Cache.unpack, if_neg (by omega), hgrow (i + 1) (by rw [← hinv.len_nr]; omega)]
    have hgd : S.by_nr[i]?.getD 0 = v := by
      rw [List.getElem?_eq_getElem hi, Option.getD_some]
      exact (List.get_eq_getElem S.by_nr ⟨i, hi⟩) ▸ hget
    simp [Except.map, hgd]
  · intro n h1 h2
    have hlen : n - 1 < S.by_nr.length := by rw [hinv.len_nr]; omega
    have hfind := hinv.nr_ref (n - 1) hlen
    have hn1 : n - 1 + 1 = n := by omega
    rw [hn1] at hfind
    refine ⟨S.by_nr.get ⟨n - 1, hlen⟩, ?_, by rw [Cache.pack, hfind]⟩
    rw [Cache.unpack, if_neg (by omega), hgrow n h2]
    have hgd : S.by_nr[n - 1]?.getD 0 = S.by_nr.get ⟨n - 1, hlen⟩ := by
      rw [List.getElem?_eq_getElem hlen, Option.getD_some, List.get_eq_getElem]
    simp [Except.map, hgd]

/-- The state of a fresh cache after `resolve("a")`. -/
def cacheA : Cache :=
  { cache := ["a"], by_name := [("a", 0)], by_nr := [0], by_ref := [(0, 1)],
    frozen := false, nextRef := 1 }

theorem cacheA_reachable : Cache.Reachable cacheA := by
  have h1 := Cache.Step.resolve Cache.init "a"
  rw [show Cache.init.resolveState "a" = cacheA from rfl] at h1
  exact Relation.ReflTransGen.single h1

/-- Witness for C7 at the reachable one-variable cache. -/
theorem C7_domain_bijection_witness :
    Cache.Reachable cacheA ∧
    ((∀ v ∈ cacheA.by_nr, ∃ nr, cacheA.pack v = (nr, cacheA) ∧
        cacheA.unpack nr = .ok (v, cacheA)) ∧
      (∀ n, 1 ≤ n → n ≤ cacheA.cache.length →
        ∃ v, cacheA.unpack n = .ok (v, cacheA) ∧ cacheA.pack v = (n, cacheA)) ∧
      cacheA.unpack 0 = .error .invalidVarNr) :=
  ⟨cacheA_reachable, C7_domain_bijection cacheA cacheA_reachable⟩

/-! ### Claim C10 -/

/-- C10: `pack` of a pointer the cache has never seen does not fail: it
returns `0` (the invalid `VarNr`), inserts `v → 0` into `by_ref`, and
every later `pack(v)` on that cache — after any sequence of further
operations — still returns `0` (`unordered_map::insert` never
overwrites the entry). -/
theorem C10_pack_unknown_ref (S : Cache) (v : Nat) (hS : Cache.Reachable S)
    (h : assocFind S.by_ref v = none) :
    (S.pack v).1 = 0 ∧
    (S.pack v).2.by_ref = S.by_ref ++ [(v, 0)] ∧
    ∀ S', Relation.ReflTransGen Cache.Step (S.pack v).2 S' → (S'.pack v).1 = 0 := by
  have hpack : S.pack v =
      (0, { S with by_ref := S.by_ref ++ [(v, 0)], nextRef := max S.nextRef (v + 1) }) := by
    rw [Cache.pack, h]
  refine ⟨by rw [hpack], by rw [hpack], ?_⟩
  intro S' htrail
  have hbase : assocFind (S.pack v).2.by_ref v = some 0 := by
    rw [hpack, assocFind_append_of_none _ _ _ h]
    simp [assocFind]
  have hreach0 : Cache.Reachable (S.pack v).2 :=
    Relation.ReflTransGen.tail hS (Cache.Step.pack S v)
  have main : Cache.Reachable S' ∧ assocFind S'.by_ref v = some 0 := by
    induction htrail with
    | refl => exact ⟨hreach0, hbase⟩
    | tail hst hstep ih =>
      obtain ⟨hr, hfind⟩ := ih
      obtain ⟨_, t, ht⟩ := Cache.step_inv hstep (Cache.reachable_inv hr)
      exact ⟨Relation.ReflTransGen.tail hr hstep,
        ht ▸ assocFind_append_of_some _ _ _ _ hfind⟩
  rw [Cache.pack, main.2]

/-- Witness for C10: pack the foreign pointer `5` on a fresh cache. -/
theorem C10_pack_unknown_ref_witness :
    (Cache.Reachable Cache.init ∧ assocFind Cache.init.by_ref 5 = none) ∧
    ((Cache.init.pack 5).1 = 0 ∧
      (Cache.init.pack 5).2.by_ref = Cache.init.by_ref ++ [(5, 0)] ∧
      ∀ S', Relation.ReflTransGen Cache.Step (Cache.init.pack 5).2 S' →
        (S'.pack 5).1 = 0) :=
  ⟨⟨Relation.ReflTransGen.refl, rfl⟩,
    C10_pack_unknown_ref Cache.init 5 Relation.ReflTransGen.refl rfl⟩

/-!
## Tseitin transform (src/core/tseitin.cpp, src/include/tseitin.hpp)

The auxiliary variables live in a dedicated `Tseitin::Domain`, a `Cache`
whose `get(ast)` interns by structural equality of subtrees
(src/core/tseitin.cpp:29-54: cache hit by pointer, then a full scan with
`ast->equals(*a)`, then allocation).  The model identifies an auxiliary
variable by its `VarNr` in that domain (1-based allocation order) and
the `astcache` by an association list looked up by structural equality.
-/

/-- `Tseitin::Domain::get` (src/core/tseitin.cpp:29-54): return the
cached auxiliary variable for a structurally equal subtree, or allocate
the next one (`put_variable` gives it `VarNr = by_nr.size()` after the
push, i.e. previous count + 1). -/
def tgetVar (cache : List (Ast Nat × Nat)) (ast : Ast Nat) : Nat × List (Ast Nat × Nat) :=
  match assocFind cache ast with
  | some v => (v, cache)
  | none => (cache.length + 1, cache ++ [(ast, cache.length + 1)])

/-- A Tseitin clause: literals on auxiliary variables. -/
def TClause := List (Nat × Bool)

/-- The state of the `Tseitin` stream (src/include/tseitin.hpp /
src/core/tseitin.cpp): the ast-to-auxiliary cache of the Tseitin
domain, the BFS queue of AST nodes, the queue of pending clauses, the
current clause and the validity flag. -/
structure TseitinState where
  vars : List (Ast Nat × Nat)
  queue : List (Ast Nat)
  clauses : List TClause
  last : Option TClause
  valid : Bool

/-- The constructor body of `Tseitin::Tseitin` (src/core/tseitin.cpp:56-65)
before its final `++*this`: intern the root, push the unit clause
`{v_root: true}` requiring the root to be true, and seed the BFS queue
with the root. -/
def tseitinInit (F : Ast Nat) : TseitinState :=
  let p := tgetVar [] F
  { vars := p.2, queue := [F], clauses := [[(p.1, true)]], last := none, valid := false }

/-- Emit the CNF template clauses of one AST node
(src/core/tseitin.cpp:89-183) and return the new domain cache, the
clauses pushed and the children enqueued.  Clauses that would put the
same auxiliary both positively and negatively (possible when both
children intern to the same auxiliary) are omitted, guarded by `a != b`
exactly as in the source. -/
def tseitinNode (vars : List (Ast Nat × Nat)) (ast : Ast Nat) :
    List (Ast Nat × Nat) × List TClause × List (Ast Nat) :=
  match ast with
  | .const b =>
    let pc := tgetVar vars ast
    (pc.2, [[(pc.1, b)]], [])
  | .var _ => (vars, [], [])
  | .not x =>
    let pc := tgetVar vars ast
    let pa := tgetVar pc.2 x
    (pa.2, [[(pa.1, false), (pc.1, false)], [(pa.1, true), (pc.1, true)]], [x])
  | .and l r =>
    let pc := tgetVar vars ast
    let pa := tgetVar pc.2 l
    let pb := tgetVar pa.2 r
    (pb.2,
      [[(pa.1, false), (pb.1, false), (pc.1, true)],
       [(pa.1, true), (pc.1, false)],
       [(pb.1, true), (pc.1, false)]], [l, r])
  | .or l r =>
    let pc := tgetVar vars ast
    let pa := tgetVar pc.2 l
    let pb := tgetVar pa.2 r
    (pb.2,
      [[(pa.1, true), (pb.1, true), (pc.1, false)],
       [(pa.1, false), (pc.1, true)],
       [(pb.1, false), (pc.1, true)]], [l, r])
  | .impl l r =>
    let pc := tgetVar vars ast
    let pa := tgetVar pc.2 l
    let pb := tgetVar pa.2 r
    (pb.2,
      (if pa.1 ≠ pb.1 then [[(pa.1, false), (pb.1, true), (pc.1, false)]] else []) ++
      [[(pa.1, true), (pc.1, true)],
       [(pb.1, false), (pc.1, true)]], [l, r])
  | .eqv l r =>
    let pc := tgetVar vars ast
    let pa := tgetVar pc.2 l
    let pb := tgetVar pa.2 r
    (pb.2,
      [[(pa.1, false), (pb.1, false), (pc.1, true)],
       [(pa.1, true), (pb.1, true), (pc.1, true)]] ++
      (if pa.1 ≠ pb.1 then
        [[(pa.1, true), (pb.1, false), (pc.1, false)],
         [(pa.1, false), (pb.1, true), (pc.1, false)]] else []), [l, r])
  | .xor l r =>
    let pc := tgetVar vars ast
    let pa := tgetVar pc.2 l
    let pb := tgetVar pa.2 r
    (pb.2,
      [[(pa.1, false), (pb.1, false), (pc.1, false)],
       [(pa.1, true), (pb.1, true), (pc.1, false)]] ++
      (if pa.1 ≠ pb.1 then
        [[(pa.1, true), (pb.1, false), (pc.1, true)],
         [(pa.1, false), (pb.1, true), (pc.1, true)]] else []), [l, r])

/-- `Tseitin::operator++` (src/core/tseitin.cpp:67-186): pop the next
pending clause if any (setting `last` and `valid`); otherwise pop the
next AST node from the BFS queue and emit its template clauses, until
the queue is exhausted (`valid = false`).  `fuel` bounds the loop
iterations (the `produce(*last)` call feeds the stream cache and does
not affect this state). -/
def tseitinAdvance : Nat → TseitinState → TseitinState
  | 0, st => st
  | fuel + 1, st =>
    match st.clauses with
    | cl :: rest => { st with last := some cl, clauses := rest, valid := true }
    | [] =>
      match st.queue with
      | [] => { st with valid := false }
      | ast :: qrest =>
        let p := tseitinNode st.vars ast
        tseitinAdvance fuel
          { st with vars := p.1, queue := qrest ++ p.2.2, clauses := p.2.1 }

/-- `Tseitin::Tseitin`: construct the state and advance to the first
clause (one loop iteration suffices: the clause queue holds the root
unit clause). -/
def tseitinStart (F : Ast Nat) : TseitinState :=
  tseitinAdvance 1 (tseitinInit F)

/-! ### Claim C4 -/

/-- C4: for every formula `F`, the Tseitin stream starts non-empty
(`valid` after construction) and its first clause is the unit clause
`{v_root: true}` on the auxiliary variable interned for the root AST
node — the first variable (`VarNr` 1) of the fresh Tseitin domain,
whose cache maps `F` to it. -/
theorem C4_tseitin_root_unit (F : Ast Nat) :
    (tseitinStart F).valid = true ∧
    (tseitinStart F).last = some [((tgetVar [] F).1, true)] ∧
    (tgetVar [] F).1 = 1 ∧
    assocFind (tseitinStart F).vars F = some 1 := by
  have hget : tgetVar [] F = (1, [(F, 1)]) := rfl
  have hinit : tseitinInit F =
      { vars := [(F, 1)], queue := [F], clauses := [[(1, true)]],
        last := none, valid := false } := by
    rw [tseitinInit, hget]
  have hstart : tseitinStart F =
      { vars := [(F, 1)], queue := [F], clauses := [],
        last := some [(1, true)], valid := true } := by
    rw [tseitinStart, hinit, tseitinAdvance]
  refine ⟨by rw [hstart], by rw [hstart, hget], by rw [hget], ?_⟩
  rw [hstart]
  simp [assocFind]

/-!
## CNF stream (src/core/cnf.cpp, src/include/cnf.hpp)

The `CNF` stream flattens `And` nodes at the front of a queue of
subtrees, then enumerates for each subtree the assignments over the
subtree's variables and emits the bitwise negation of every assignment
on which — as written in the source — `fm.eval(last)` is false, where
`fm` is the **whole** formula, not the current subtree.  `Formula::eval`
here is the shared-AST implementation `root->eval(assign)`
(src/formula.hpp:48) whose node evaluators short-circuit through C++
`&&`/`||` (src/include/ast.hpp: `lhs->eval(assign) && rhs->eval(assign)`
etc.); this is the same function as `Formula::EVAL` above. -/

/-- The flattening loop of the `CNF` constructor
(src/core/cnf.cpp:26-32): `while (queue.front()->type() == And)` pop the
front and push both children at the back.  Each iteration removes one
`And` node, so the loop runs at most the total node count of the queue;
`fuel` is instantiated with that bound. -/
def cnfFlattenF : Nat → List (Ast Nat) → List (Ast Nat)
  | 0, q => q
  | fuel + 1, q =>
    match q with
    | .and l r :: rest => cnfFlattenF fuel (rest ++ [l, r])
    | _ => q

def cnfFlatten (q : List (Ast Nat)) : List (Ast Nat) :=
  cnfFlattenF (q.map Ast.size).sum q

/-- Errors observable while iterating the CNF stream: `outOfRange` is
the `std::out_of_range` thrown by reading an `Assignment` at an
undefined variable; `fuelOut` is the model's iteration bound (never hit
in the runs below). -/
inductive CnfErr where
  | outOfRange
  | fuelOut
deriving DecidableEq

/-- State of `CNF` (src/include/cnf.hpp:28-34): the queue of subtrees,
the current subtree, and the running assignment `last`. -/
structure CnfState where
  queue : List (Ast Nat)
  current : Option (Ast Nat)
  last : Assignment Nat
deriving DecidableEq

/-- `CNF::operator++` (src/core/cnf.cpp:36-59): pick the next subtree
(starting its assignment counter at all-false over the subtree's
variables, via the `Assignment(vector<VarRef>)` constructor of
src/core/assignment.cpp) or increment the counter, skip to the next
subtree on overflow, and emit `~last` whenever `fm.eval(last)` — the
whole formula evaluated on the subtree-local assignment — is false.
Returns `ok none` when the stream is exhausted. -/
def cnfAdvance (fm : Ast Nat) : Nat → CnfState → Except CnfErr (Option (Assignment Nat × CnfState))
  | 0, _ => .error .fuelOut
  | fuel + 1, st =>
    match st.current with
    | none =>
      match st.queue with
      | [] => .ok none
      | cur :: qrest =>
        let st' : CnfState :=
          { queue := qrest, current := some cur,
            last := Assignment.mkVarsCore (Formula.vars cur) }
        match Formula.EVAL st'.last fm with
        | none => .error .outOfRange
        | some true => cnfAdvance fm fuel st'
        | some false =>
          match st'.last.negA with
          | none => .error .outOfRange
          | some cl => .ok (some (cl, st'))
    | some _ =>
      match st.last.inc with
      | none => .error .outOfRange
      | some last' =>
        if last'.overflow then cnfAdvance fm fuel { st with current := none }
        else
          let st' : CnfState := { st with last := last' }
          match Formula.EVAL st'.last fm with
          | none => .error .outOfRange
          | some true => cnfAdvance fm fuel st'
          | some false =>
            match st'.last.negA with
            | none => .error .outOfRange
            | some cl => .ok (some (cl, st'))

/-- Collect the clauses of the CNF stream: each `operator++` that finds
a clause yields it (the constructor's `++*this` is the first advance). -/
def cnfRun (fm : Ast Nat) : Nat → CnfState → Except CnfErr (List (Assignment Nat))
  | 0, _ => .error .fuelOut
  | fuel + 1, st =>
    match cnfAdvance fm (fuel + 1) st with
    | .error e => .error e
    | .ok none => .ok []
    | .ok (some (cl, st')) => (cnfRun fm fuel st').map (cl :: ·)

/-- `Formula::cnf()`: construct the stream on the flattened queue and
iterate it. -/
def cnfClauses (F : Ast Nat) (fuel : Nat) : Except CnfErr (List (Assignment Nat)) :=
  cnfRun F fuel
    { queue := cnfFlatten [F], current := none,
      last := { order := [], vmap := [], overflow := true } }

/-! ### Claim C1 -/

/-- C1: the CNF stream is claimed to emit, for each flattened subtree
`s`, the negations of the falsifying assignments **of `s`** over
`vars(s)`, and to satisfy `F.eval(a) == all clauses satisfied`.  The
code instead evaluates the **whole formula** (`fm.eval(last)`,
src/core/cnf.cpp:53 and src/include/cnf.hpp:72) on the subtree-local
assignment: already for `F = a & b` the enumeration of the first
subtree `a` reaches `{a: true}`, short-circuiting fails (`a` is true, so
`b` is read) and `Assignment::operator[]` throws `std::out_of_range`
out of the stream, instead of producing the clauses `{a: true}`,
`{b: true}` the claim describes.  The repository's own cnf test
(src/t/formula.t.cpp, `is_eqv` over `testfms` which contains "a & b")
expects the iteration to complete and the equivalence to hold. -/
theorem C1_cnf_evaluates_whole_formula :
    cnfClauses (.and (.var 0) (.var 1)) 40 = .error .outOfRange ∧
    Formula.EVAL { order := [0], vmap := [(0, true)], overflow := false }
      (Ast.and (.var 0) (.var 1) : Ast Nat) = none := by
  constructor <;> rfl

/-!
## The parser (src/core/formula.cpp:117-365)

Shunting-yard over a token scanner.  For the parser and the
stringifications the variable payload is the resolved name: the shared
domain's `pack(resolve(name))` is injective in the name, and
stringification inverts it through `unpack`, so within one domain a
variable is determined by its name.

The C++ interleaves `next_token` with the parser loop; the model scans
the whole input first.  Both report the same results except on inputs
that contain a parser error before a later scanner error (no claim
touches such an input). -/

/-- `isblank` in the C locale: space or horizontal tab. -/
def isblankC (c : Char) : Bool := c = ' ' ∨ c = '\t'

/-- `isalnum` in the C locale: ASCII digits and letters. -/
def isalnumC (c : Char) : Bool :=
  ('0' ≤ c ∧ c ≤ '9') ∨ ('A' ≤ c ∧ c ≤ 'Z') ∨ ('a' ≤ c ∧ c ≤ 'z')

/-- Operator kinds (`enum optype`, values `OP_NOT` … `OP_XOR`). -/
inductive OpType where
  | notOp
  | andOp
  | orOp
  | implOp
  | eqvOp
  | xorOp
deriving DecidableEq

/-- `Ast::Prec` values (src/include/ast.hpp:58-68): `Symbolic = 20`,
`Notish = 14`, `Andish = 12`, `Orish = 10`, `Implish = 8`,
`Eqvish = Xorish = 6`. -/
def opPrec : OpType → Nat
  | .notOp => 14
  | .andOp => 12
  | .orOp => 10
  | .implOp => 8
  | .eqvOp => 6
  | .xorOp => 6

/-- Scanned token (`struct token`): type, payload and starting offset. -/
inductive Tok where
  | const (val : Bool) (off : Nat)
  | var (name : String) (off : Nat)
  | op (o : OpType) (off : Nat)
  | paren (opening : Bool) (off : Nat)
deriving DecidableEq

def Tok.offset : Tok → Nat
  | .const _ off => off
  | .var _ off => off
  | .op _ off => off
  | .paren _ off => off

/-- `X::Formula::Parser`: message and 0-based byte offset. -/
structure ParseErr where
  msg : String
  offset : Nat
deriving DecidableEq

deriving instance DecidableEq for Except

/-- The whitespace-skipping loop at the top of `next_token`. -/
def skipBlank : List Char → Nat → List Char × Nat
  | [], i => ([], i)
  | c :: cs, i => if isblankC c then skipBlank cs (i + 1) else (c :: cs, i)

/-- The `[...]` scan (`while (s[i++] != ']') len++`): collect up to the
first `]`.  On a missing `]` the C++ reads past the end of the string
(undefined behaviour); the model reports a scan error there. -/
def scanBracket : List Char → Option (List Char × List Char)
  | [] => none
  | c :: cs =>
    if c = ']' then some ([], cs)
    else (scanBracket cs).map fun p => (c :: p.1, p.2)

/-- The bare-word scan: continue while `isalnum(s[i]) || s[i] == '_'`. -/
def scanWord : List Char → List Char × List Char
  | [] => ([], [])
  | c :: cs =>
    if isalnumC c ∨ c = '_' then
      let p := scanWord cs
      (c :: p.1, p.2)
    else ([], c :: cs)

/-- The token dispatch of `next_token` (src/core/formula.cpp:123-192),
operating on the input after the whitespace skip.  The branch order
follows the source: EOF, `\\T`/`\\F`, `[...]`, bare word, parentheses,
the operator characters, and finally
`throw Parser("Unrecognized token", offset)`. -/
def scanTok : List Char → Nat → Except ParseErr (Option (Tok × List Char × Nat))
  | [], _ => .ok none
  | '\\' :: 'T' :: rest, j => .ok (some (.const true j, rest, j + 2))
  | '\\' :: 'F' :: rest, j => .ok (some (.const false j, rest, j + 2))
  | '[' :: rest, j =>
    match scanBracket rest with
    | none => .error { msg := "unterminated bracket variable", offset := j }
    | some (name, rest') =>
      .ok (some (.var (String.mk name) j, rest', j + 2 + name.length))
  | c :: rest, j =>
    if isalnumC c then
      let p := scanWord rest
      .ok (some (.var (String.mk (c :: p.1)) j, p.2, j + 1 + p.1.length))
    else if c = '(' then .ok (some (.paren true j, rest, j + 1))
    else if c = ')' then .ok (some (.paren false j, rest, j + 1))
    else if c = '~' then .ok (some (.op .notOp j, rest, j + 1))
    else if c = '&' then .ok (some (.op .andOp j, rest, j + 1))
    else if c = '|' then .ok (some (.op .orOp j, rest, j + 1))
    else if c = '^' then .ok (some (.op .xorOp j, rest, j + 1))
    else if c = '>' then .ok (some (.op .implOp j, rest, j + 1))
    else
      match c, rest with
      | '-', '>' :: rest' => .ok (some (.op .implOp j, rest', j + 2))
      | '=', rest => .ok (some (.op .eqvOp j, rest, j + 1))
      | '<', '-' :: '>' :: rest' => .ok (some (.op .eqvOp j, rest', j + 3))
      | _, _ => .error { msg := "Unrecognized token", offset := j }

/-- `next_token`: skip whitespace, then dispatch. -/
def nextToken (cs : List Char) (i : Nat) : Except ParseErr (Option (Tok × List Char × Nat)) :=
  let p := skipBlank cs i
  scanTok p.1 p.2

theorem skipBlank_suffix_len (cs : List Char) (i : Nat) :
    (skipBlank cs i).1.length ≤ cs.length := by
  induction cs generalizing i with
  | nil => simp [skipBlank]
  | cons c cs ih =>
    by_cases h : isblankC c
    · simp only [skipBlank, h, if_pos]
      exact le_trans (ih (i + 1)) (by simp)
    · simp [skipBlank, h]

theorem scanBracket_len (cs : List Char) :
    ∀ p, scanBracket cs = some p → p.2.length < cs.length := by
  induction cs with
  | nil => intro p h; simp [scanBracket] at h
  | cons c cs ih =>
    intro p h
    by_cases hc : c = ']'
    · rw [scanBracket, if_pos hc] at h
      cases h
      simp
    · rw [scanBracket, if_neg hc] at h
      cases hsc : scanBracket cs with
      | none => rw [hsc] at h; simp at h
      | some q =>
        rw [hsc, Option.map_some'] at h
        cases h
        have h2 := ih q hsc
        simp only [List.length_cons]
        omega

theorem scanWord_len (cs : List Char) : (scanWord cs).2.length ≤ cs.length := by
  induction cs with
  | nil => simp [scanWord]
  | cons c cs ih =>
    by_cases h : isalnumC c ∨ c = '_'
    · simp only [scanWord, h, if_pos]
      exact le_trans ih (by simp)
    · simp [scanWord, h]

theorem scanWord_len_lt (c : Char) (r : List Char) :
    (scanWord r).2.length < (c :: r).length :=
  lt_of_le_of_lt (scanWord_len r) (by simp)

theorem scanBracket_len_lt (c : Char) (r nm rest' : List Char)
    (h : scanBracket r = some (nm, rest')) : rest'.length < (c :: r).length :=
  lt_trans (scanBracket_len r (nm, rest') h) (by simp)

theorem scanTok_consumes (cs : List Char) (j : Nat) (t : Tok) (rest : List Char) (i' : Nat)
    (h : scanTok cs j = .ok (some (t, rest, i'))) : rest.length < cs.length := by
  rw [scanTok.eq_def] at h
  split at h
  · simp at h
  · cases h; simp only [List.length_cons]; omega
  · cases h; simp only [List.length_cons]; omega
  · split at h
    · simp at h
    · rename_i heq
      cases h
      exact scanBracket_len_lt _ _ _ _ heq
  · split at h
    · cases h
      exact scanWord_len_lt _ _
    · split at h
      · cases h; simp only [List.length_cons]; omega
      · split at h
        · cases h; simp only [List.length_cons]; omega
        · split at h
          · cases h; simp only [List.length_cons]; omega
          · split at h
            · cases h; simp only [List.length_cons]; omega
            · split at h
              · cases h; simp only [List.length_cons]; omega
              · split at h
                · cases h; simp only [List.length_cons]; omega
                · split at h
                  · cases h; simp only [List.length_cons]; omega
                  · split at h
                    · cases h; simp only [List.length_cons]; omega
                    · cases h; simp only [List.length_cons]; omega
                    · cases h; simp only [List.length_cons]; omega
                    · simp at h

theorem nextToken_consumes (cs : List Char) (i : Nat) (t : Tok) (rest : List Char) (i' : Nat)
    (h : nextToken cs i = .ok (some (t, rest, i'))) : rest.length < cs.length := by
  have hsb := skipBlank_suffix_len cs i
  rw [nextToken] at h
  have := scanTok_consumes (skipBlank cs i).1 (skipBlank cs i).2 t rest i' h
  omega

/-- The scanning loop with an explicit iteration bound: every call to
`next_token` consumes at least one character (`nextToken_consumes`), so
`length + 1` iterations always suffice; the fuel-exhaustion error is
unreachable from `tokenize` below. -/
def tokenizeF : Nat → List Char → Nat → Except ParseErr (List Tok × Nat)
  | 0, _, i => .error { msg := "tokenizer fuel exhausted", offset := i }
  | fuel + 1, cs, i =>
    match nextToken cs i with
    | .error e => .error e
    | .ok none => .ok ([], (skipBlank cs i).2)
    | .ok (some (t, rest, i')) => (tokenizeF fuel rest i').map fun p => (t :: p.1, p.2)

/-- Scan the whole input; returns the token list and the end-of-input
offset (used for the EOF parse error). -/
def tokenize (cs : List Char) (i : Nat) : Except ParseErr (List Tok × Nat) :=
  tokenizeF (cs.length + 1) cs i

/-- The fuel is irrelevant as long as it exceeds the input length. -/
theorem tokenizeF_fuel_irrel :
    ∀ (fuel fuel' : Nat) (cs : List Char) (i : Nat),
      cs.length < fuel → cs.length < fuel' →
      tokenizeF fuel cs i = tokenizeF fuel' cs i := by
  intro fuel
  induction fuel with
  | zero => intro fuel' cs i h1 _; omega
  | succ f ih =>
    intro fuel' cs i h1 h2
    cases fuel' with
    | zero => omega
    | succ f' =>
      rw [tokenizeF, tokenizeF]
      cases hnt : nextToken cs i with
      | error e => rfl
      | ok o =>
        cases o with
        | none => rfl
        | some p =>
          obtain ⟨t, rest, i'⟩ := p
          have hlt := nextToken_consumes cs i t rest i' hnt
          simp only [ih f' rest i' (by omega) (by omega)]

/-- `is_opening_paren` (src/core/formula.cpp:195-197). -/
def isOpeningPar : Tok → Bool
  | .paren true _ => true
  | _ => false

/-- `is_binary` (src/core/formula.cpp:203-205): an operator token of
binary arity (all operators except `~`). -/
def isBinaryTok : Tok → Bool
  | .op o _ => o != .notOp
  | _ => false

/-- Precedence of an operator token (`OPS[tok.op].prec`); leaves are
`Symbolic = 20` (never consulted on the operator stack). -/
def tokPrec : Tok → Nat
  | .op o _ => opPrec o
  | _ => 20

/-- Build the AST node of an operator (`reduce` pushes
`OPS[tok.op]` followed by the operand vectors, i.e. the preorder of
this tree). -/
def opAst (o : OpType) (l r : Ast String) : Ast String :=
  match o with
  | .notOp => .not r
  | .andOp => .and l r
  | .orOp => .or l r
  | .implOp => .impl l r
  | .eqvOp => .eqv l r
  | .xorOp => .xor l r

/-- `reduce` (src/core/formula.cpp:216-237): an opening parenthesis is
a no-op; otherwise pop the operands (rhs first) and push the new
subformula.  The deque is modeled with its **back at the head**.  The C++
throws "Missing operands" when fewer operands than the arity remain. -/
def reduceTok (tok : Tok) (dq : List (Ast String × Tok)) :
    Except ParseErr (List (Ast String × Tok)) :=
  match tok with
  | .paren true _ => .ok dq
  | .op .notOp off =>
    match dq with
    | r :: rest => .ok ((.not r.1, tok) :: rest)
    | [] => .error { msg := "Missing operands", offset := off }
  | .op o off =>
    match dq with
    | r :: l :: rest => .ok ((opAst o l.1 r.1, tok) :: rest)
    | _ => .error { msg := "Missing operands", offset := off }
  | t => .error { msg := "Invalid token", offset := t.offset }

/-- The reduce loop run on reading an operator
(src/core/formula.cpp:301-307): pop and reduce while the top of the
operator stack is not an opening parenthesis and binds strictly
tighter (`OPS[op.op].prec > OPS[tok.op].prec`; equal precedence does
not reduce — all operators are right-associative). -/
def popReduceOp (p : Nat) : List Tok → List (Ast String × Tok) →
    Except ParseErr (List Tok × List (Ast String × Tok))
  | [], dq => .ok ([], dq)
  | top :: rest, dq =>
    if isOpeningPar top ∨ tokPrec top ≤ p then .ok (top :: rest, dq)
    else
      match reduceTok top dq with
      | .error e => .error e
      | .ok dq' => popReduceOp p rest dq'

/-- The closing-parenthesis loop (src/core/formula.cpp:324-333):
`do { pop; reduce } while (!is_opening_paren(op))`; an empty stack
means "Missing opening parenthesis" at the `)` offset. -/
def closeParen (offC : Nat) : List Tok → List (Ast String × Tok) →
    Except ParseErr (List Tok × List (Ast String × Tok))
  | [], _ => .error { msg := "Missing opening parenthesis", offset := offC }
  | top :: rest, dq =>
    match reduceTok top dq with
    | .error e => .error e
    | .ok dq' =>
      if isOpeningPar top then .ok (rest, dq')
      else closeParen offC rest dq'

/-- The drain loop after the input is consumed
(src/core/formula.cpp:348-354): a leftover opening parenthesis is a
"Missing closing parenthesis" error at the parenthesis' offset. -/
def drainOps : List Tok → List (Ast String × Tok) →
    Except ParseErr (List (Ast String × Tok))
  | [], dq => .ok dq
  | top :: rest, dq =>
    if isOpeningPar top then
      .error { msg := "Missing closing parenthesis", offset := top.offset }
    else
      match reduceTok top dq with
      | .error e => .error e
      | .ok dq' => drainOps rest dq'

/-- The parser's expectation state (`enum expect`). -/
inductive Expect where
  | term
  | infixNext
deriving DecidableEq

/-- The parser loop of `parse` (src/core/formula.cpp:243-365) over the
scanned tokens, with the deque of subformulas (back at head), the
operator stack (top at head) and the expectation state; `eofOff` is the
scan position of the end of input (`i` at the final `next_token`).  The
final part implements the after-loop checks: a pending term
expectation is "Term expected but EOF reached", then the operator
stack is drained, and the deque must hold exactly one entry
("No operands left after reduction" / "Excess operands after
reduction", the latter at the offset of the *first* deque entry). -/
def parseLoop (eofOff : Nat) : List Tok → List (Ast String × Tok) → List Tok → Expect →
    Except ParseErr (Ast String)
  | [], dq, ops, next =>
    if next = .term then .error { msg := "Term expected but EOF reached", offset := eofOff }
    else
      match drainOps ops dq with
      | .error e => .error e
      | .ok dq' =>
        match dq' with
        | [] => .error { msg := "No operands left after reduction", offset := eofOff }
        | [x] => .ok x.1
        | _ :: _ :: _ =>
          .error { msg := "Excess operands after reduction",
                   offset := (dq'.getLastD (Ast.const false, Tok.const false 0)).2.offset }
  | t :: ts, dq, ops, next =>
    match t with
    | .const b off =>
      if next = .term then parseLoop eofOff ts ((.const b, t) :: dq) ops .infixNext
      else .error { msg := "Infix expected but got term", offset := off }
    | .var name off =>
      if next = .term then parseLoop eofOff ts ((.var name, t) :: dq) ops .infixNext
      else .error { msg := "Infix expected but got term", offset := off }
    | .op o off =>
      if o = .notOp then
        -- unary: legal in term position only, expectation unchanged
        if next = .term then
          match popReduceOp (opPrec o) ops dq with
          | .error e => .error e
          | .ok (ops', dq') => parseLoop eofOff ts dq' (t :: ops') .term
        else .error { msg := "Infix expected but got term", offset := off }
      else
        -- binary: legal in infix position only, expectation toggles
        if next = .infixNext then
          match popReduceOp (opPrec o) ops dq with
          | .error e => .error e
          | .ok (ops', dq') => parseLoop eofOff ts dq' (t :: ops') .term
        else .error { msg := "Term expected but got infix", offset := off }
    | .paren true off =>
      if next = .term then parseLoop eofOff ts dq (t :: ops) .term
      else .error { msg := "Infix expected but got term", offset := off }
    | .paren false off =>
      if next = .term then
        .error { msg := "Term expected when encountering closing parenthesis", offset := off }
      else
        match closeParen off ops dq with
        | .error e => .error e
        | .ok (ops', dq') => parseLoop eofOff ts dq' ops' next

/-- `parse` (src/core/formula.cpp:243): scan and run the parser. -/
def parse (s : String) : Except ParseErr (Ast String) :=
  match tokenize s.data 0 with
  | .error e => .error e
  | .ok (ts, eofOff) => parseLoop eofOff ts [] [] .term

/-! ### Claim C9 -/

/-!
## Stringification

`Formula::to_postfix` (src/core/formula.cpp:710-736) and
`Formula::to_infix` (src/core/formula.cpp:738-772) iterate the `pn`
vector **backwards** (`for (i = pn.size(); i-- > 0;)`) maintaining a
vector of completed terms whose back is modeled as the head of a list.
`Formula::to_string` (src/include/formula.hpp:73-77) stringifies a
`Var` node via `Variable::to_string` (src/include/variable.hpp:35),
which always brackets the name.
-/

/-- `Formula::to_string(Ast)` on one pn node: `\T`/`\F` for constants,
`"[" + name + "]"` for variables, the operator symbol otherwise. -/
def nodeStr : Node String → String
  | .const b => if b then "\\T" else "\\F"
  | .var name => "[" ++ name ++ "]"
  | .not => "~"
  | .and => "&"
  | .or => "|"
  | .impl => ">"
  | .eqv => "="
  | .xor => "^"

/-- `Ast::Prec` of one pn node (src/include/ast.hpp:58-68). -/
def nodePrec : Node String → Nat
  | .const _ => 20
  | .var _ => 20
  | .not => 14
  | .and => 12
  | .or => 10
  | .impl => 8
  | .eqv => 6
  | .xor => 6

/-- `Ast::Arity` of one pn node. -/
def nodeArity : Node String → Nat
  | .const _ => 0
  | .var _ => 0
  | .not => 1
  | _ => 2

/-- One backward iteration of `Formula::to_postfix`.  The vector's back
is the list head.  `terms.back()` on an empty vector is undefined
behaviour in C++; it is unreachable on preorder traversals, and the
model returns the stack unchanged there. -/
def postfixStep (ast : Node String) (terms : List String) : List String :=
  if nodeArity ast = 0 then nodeStr ast :: terms
  else if nodeArity ast = 1 then
    match terms with
    | b :: rest => (b ++ " " ++ nodeStr ast) :: rest
    | [] => terms
  else
    match terms with
    | lhs :: b :: rest => (lhs ++ " " ++ b ++ " " ++ nodeStr ast) :: rest
    | _ => terms

def postfixRun : List (Node String) → List String → List String
  | [], terms => terms
  | n :: ns, terms => postfixRun ns (postfixStep n terms)

/-- `Formula::to_postfix`: run the machine over the reversed preorder;
the final vector holds exactly one term (the C++ `assert`), which is
returned. -/
def Formula.toPostfixStr (F : Ast String) : String :=
  (postfixRun F.preorder.reverse []).headD ""

/-- One backward iteration of `Formula::to_infix`: terms carry the node
that produced them, and an operand is parenthesized iff its node binds
strictly looser than the current operator (`opr.prec < ast.prec`). -/
def infixStep (ast : Node String) (terms : List (Node String × String)) :
    List (Node String × String) :=
  if nodeArity ast = 0 then (ast, nodeStr ast) :: terms
  else if nodeArity ast = 1 then
    match terms with
    | (opr, rhs) :: rest =>
      let rhs' := if nodePrec opr < nodePrec ast then "(" ++ rhs ++ ")" else rhs
      (ast, nodeStr ast ++ rhs') :: rest
    | [] => terms
  else
    match terms with
    | (opl, lhs) :: (opr, rhs) :: rest =>
      let lhs' := if nodePrec opl < nodePrec ast then "(" ++ lhs ++ ")" else lhs
      let rhs' := if nodePrec opr < nodePrec ast then "(" ++ rhs ++ ")" else rhs
      (ast, lhs' ++ " " ++ nodeStr ast ++ " " ++ rhs') :: rest
    | _ => terms

def infixRun : List (Node String) → List (Node String × String) → List (Node String × String)
  | [], terms => terms
  | n :: ns, terms => infixRun ns (infixStep n terms)

/-- `Formula::to_infix`. -/
def Formula.toInfixStr (F : Ast String) : String :=
  ((infixRun F.preorder.reverse []).headD (Node.const false, "")).2

/-! ### Claim C2 -/

/-- C2 counterexample: for s = "(a & b) & c", F = parse(s) is the
left-nested And((a & b), c) with postfix "[a] [b] & [c] &"; its infix
stringification drops the parentheses (equal precedence is printed
unparenthesized on both sides, but the parser associates equal
precedence to the right), so re-parsing yields the right-nested
And(a, (b & c)) whose postfix "[a] [b] [c] & &" differs. -/
theorem C2_roundtrip_cex :
    parse "(a & b) & c" = .ok (.and (.and (.var "a") (.var "b")) (.var "c")) ∧
    Formula.toInfixStr (.and (.and (.var "a") (.var "b")) (.var "c")) = "[a] & [b] & [c]" ∧
    Formula.toPostfixStr (.and (.and (.var "a") (.var "b")) (.var "c")) = "[a] [b] & [c] &" ∧
    parse "[a] & [b] & [c]" = .ok (.and (.var "a") (.and (.var "b") (.var "c"))) ∧
    Formula.toPostfixStr (.and (.var "a") (.and (.var "b") (.var "c"))) = "[a] [b] [c] & &" := by
  refine ⟨by decide, by decide, by decide, by decide, by decide⟩

/-- C9 counterexample: parsing `"~a + b"` does fail with
"unrecognized token", but the 0-based byte offset carried by the error
is 3 (the position of the `+`), not 4, and the message is spelled
"Unrecognized token"; the claimed error value (offset 4 under the
0-based convention) is not produced.  (The repository's test
t/parser.t.cpp compares `1 + e.offset` with 4 — a 1-based position.) -/
theorem C9_parse_offset_cex :
    parse "~a + b" = .error { msg := "Unrecognized token", offset := 3 } ∧
    parse "~a + b" ≠ .error { msg := "unrecognized token", offset := 4 } ∧
    parse "~a + b" ≠ .error { msg := "Unrecognized token", offset := 4 } := by
  refine ⟨by decide, by decide, by decide⟩

/-- C9 amended: parsing `"~a + b"` fails with a ParseError whose
message is "Unrecognized token" and whose 0-based byte offset is 3,
pointing at the `+`. -/
theorem C9_parse_offset_amended :
    parse "~a + b" = .error { msg := "Unrecognized token", offset := 3 } ∧
    "~a + b".data.getD 3 ' ' = '+' := by
  refine ⟨by decide, by decide⟩

/-!
## Round-trip machinery for claim C2

The proof of the amended round-trip statement proceeds in layers:
a structural description `infixT` of the machine `Formula.toInfixStr`
(bridged by induction over the preorder), a character-level proof that
the scanner cuts the printed string back into the printed token kinds,
and a simulation of the shunting-yard loop showing that those tokens
re-build the original AST when no binary node has a left operand of
equal precedence.
-/

/-- The root pn node of a tree (`pn[0]`). -/
def rootNode : Ast String → Node String
  | .const b => .const b
  | .var v => .var v
  | .not _ => .not
  | .and _ _ => .and
  | .or _ _ => .or
  | .impl _ _ => .impl
  | .eqv _ _ => .eqv
  | .xor _ _ => .xor

/-- Precedence of a tree's root node. -/
def astPrec (F : Ast String) : Nat := nodePrec (rootNode F)

/-- Helper assembling a binary infix string with the parenthesization
rule of `Formula::to_infix`: an operand is wrapped iff its root binds
strictly looser. -/
def binJoin (p : Nat) (sym : String) (lp : Nat) (ls : String) (rp : Nat) (rs : String) :
    String :=
  (if lp < p then "(" ++ ls ++ ")" else ls) ++ " " ++ sym ++ " " ++
    (if rp < p then "(" ++ rs ++ ")" else rs)

/-- Structural recursion computing the same string as the backward
stack machine `Formula.toInfixStr` (bridged below). -/
def infixT : Ast String → String
  | .const b => nodeStr (.const b)
  | .var v => nodeStr (.var v)
  | .not x => "~" ++ (if astPrec x < 14 then "(" ++ infixT x ++ ")" else infixT x)
  | .and l r => binJoin 12 "&" (astPrec l) (infixT l) (astPrec r) (infixT r)
  | .or l r => binJoin 10 "|" (astPrec l) (infixT l) (astPrec r) (infixT r)
  | .impl l r => binJoin 8 ">" (astPrec l) (infixT l) (astPrec r) (infixT r)
  | .eqv l r => binJoin 6 "=" (astPrec l) (infixT l) (astPrec r) (infixT r)
  | .xor l r => binJoin 6 "^" (astPrec l) (infixT l) (astPrec r) (infixT r)

theorem infixRun_append (a b : List (Node String)) (terms : List (Node String × String)) :
    infixRun (a ++ b) terms = infixRun b (infixRun a terms) := by
  induction a generalizing terms with
  | nil => rfl
  | cons n ns ih => simp only [List.cons_append, List.append_eq, infixRun, ih]

/-- Bridge: running the backward machine over a preorder traversal
pushes the pair (root node, structural infix string). -/
theorem infixRun_preorder (F : Ast String) (terms : List (Node String × String)) :
    infixRun (Ast.preorder F).reverse terms = (rootNode F, infixT F) :: terms := by
  induction F generalizing terms with
  | const b => rfl
  | var v => rfl
  | not x ihx =>
    simp only [Ast.preorder, List.reverse_cons, infixRun_append, ihx]
    simp only [infixRun, infixStep, nodeArity, infixT, rootNode, astPrec]
    rfl
  | and l r ihl ihr =>
    simp only [Ast.preorder, List.reverse_cons, List.reverse_append, infixRun_append,
      ihl, ihr]
    simp only [infixRun, infixStep, nodeArity, infixT, rootNode, astPrec, binJoin]
    rfl
  | or l r ihl ihr =>
    simp only [Ast.preorder, List.reverse_cons, List.reverse_append, infixRun_append,
      ihl, ihr]
    simp only [infixRun, infixStep, nodeArity, infixT, rootNode, astPrec, binJoin]
    rfl
  | impl l r ihl ihr =>
    simp only [Ast.preorder, List.reverse_cons, List.reverse_append, infixRun_append,
      ihl, ihr]
    simp only [infixRun, infixStep, nodeArity, infixT, rootNode, astPrec, binJoin]
    rfl
  | eqv l r ihl ihr =>
    simp only [Ast.preorder, List.reverse_cons, List.reverse_append, infixRun_append,
      ihl, ihr]
    simp only [infixRun, infixStep, nodeArity, infixT, rootNode, astPrec, binJoin]
    rfl
  | xor l r ihl ihr =>
    simp only [Ast.preorder, List.reverse_cons, List.reverse_append, infixRun_append,
      ihl, ihr]
    simp only [infixRun, infixStep, nodeArity, infixT, rootNode, astPrec, binJoin]
    rfl

theorem toInfixStr_eq_infixT (F : Ast String) : Formula.toInfixStr F = infixT F := by
  rw [Formula.toInfixStr, infixRun_preorder]
  rfl

/-- A token stripped of its offset: parsing success and the resulting
AST depend on a token stream only through these kinds. -/
inductive TokKind where
  | const (val : Bool)
  | var (name : String)
  | op (o : OpType)
  | paren (opening : Bool)
deriving DecidableEq

def Tok.kind : Tok → TokKind
  | .const b _ => .const b
  | .var n _ => .var n
  | .op o _ => .op o
  | .paren b _ => .paren b

/-- Token kinds of an operand of a surrounding operator of precedence
`p`, as printed by `to_infix`: parenthesized iff it binds strictly
looser. -/
def wrapK (p : Nat) (x : Ast String) (k : List TokKind) : List TokKind :=
  if astPrec x < p then .paren true :: (k ++ [.paren false]) else k

/-- Token kinds of the printed infix form of a tree (proved below to be
what the scanner produces on `infixT`). -/
def astKinds : Ast String → List TokKind
  | .const b => [.const b]
  | .var v => [.var v]
  | .not x => .op .notOp :: wrapK 14 x (astKinds x)
  | .and l r => wrapK 12 l (astKinds l) ++ (.op .andOp :: wrapK 12 r (astKinds r))
  | .or l r => wrapK 10 l (astKinds l) ++ (.op .orOp :: wrapK 10 r (astKinds r))
  | .impl l r => wrapK 8 l (astKinds l) ++ (.op .implOp :: wrapK 8 r (astKinds r))
  | .eqv l r => wrapK 6 l (astKinds l) ++ (.op .eqvOp :: wrapK 6 r (astKinds r))
  | .xor l r => wrapK 6 l (astKinds l) ++ (.op .xorOp :: wrapK 6 r (astKinds r))

/-- The subformulas sitting (innermost first) on the parser's deque
after the token stream of a printed tree has been consumed. -/
def spineAsts : Ast String → List (Ast String)
  | .const b => [.const b]
  | .var v => [.var v]
  | .not x => if astPrec x < 14 then [x] else spineAsts x
  | .and l r => if astPrec r < 12 then [r, l] else spineAsts r ++ [l]
  | .or l r => if astPrec r < 10 then [r, l] else spineAsts r ++ [l]
  | .impl l r => if astPrec r < 8 then [r, l] else spineAsts r ++ [l]
  | .eqv l r => if astPrec r < 6 then [r, l] else spineAsts r ++ [l]
  | .xor l r => if astPrec r < 6 then [r, l] else spineAsts r ++ [l]

/-- The pending operators (innermost first) on the parser's stack after
the token stream of a printed tree has been consumed. -/
def spineOps : Ast String → List OpType
  | .const _ => []
  | .var _ => []
  | .not x => if astPrec x < 14 then [.notOp] else spineOps x ++ [.notOp]
  | .and l r => if astPrec r < 12 then [.andOp] else spineOps r ++ [.andOp]
  | .or l r => if astPrec r < 10 then [.orOp] else spineOps r ++ [.orOp]
  | .impl l r => if astPrec r < 8 then [.implOp] else spineOps r ++ [.implOp]
  | .eqv l r => if astPrec r < 6 then [.eqvOp] else spineOps r ++ [.eqvOp]
  | .xor l r => if astPrec r < 6 then [.xorOp] else spineOps r ++ [.xorOp]

/-- The trees whose printed infix form re-parses to the same tree: no
binary node has a left operand of its own precedence (such an operand
is printed without parentheses but re-associates to the right). -/
def RightLeanB : Ast String → Bool
  | .const _ => true
  | .var _ => true
  | .not x => RightLeanB x
  | .and l r => (astPrec l != 12) && (RightLeanB l && RightLeanB r)
  | .or l r => (astPrec l != 10) && (RightLeanB l && RightLeanB r)
  | .impl l r => (astPrec l != 8) && (RightLeanB l && RightLeanB r)
  | .eqv l r => (astPrec l != 6) && (RightLeanB l && RightLeanB r)
  | .xor l r => (astPrec l != 6) && (RightLeanB l && RightLeanB r)

/-- Every pending operator of a spine binds at least as tightly as the
tree's root. -/
theorem spineOps_prec (F : Ast String) : ∀ o ∈ spineOps F, astPrec F ≤ opPrec o := by
  induction F with
  | const b => intro o ho; simp [spineOps] at ho
  | var v => intro o ho; simp [spineOps] at ho
  | not x ihx =>
    intro o ho
    by_cases h : astPrec x < 14
    · simp only [spineOps, if_pos h, List.mem_singleton] at ho
      subst ho; simp [astPrec, rootNode, nodePrec, opPrec]
    · simp only [spineOps, if_neg h, List.mem_append, List.mem_singleton] at ho
      rcases ho with ho | ho
      · have := ihx o ho
        simp only [astPrec, rootNode, nodePrec] at *
        omega
      · subst ho; simp [astPrec, rootNode, nodePrec, opPrec]
  | and l r ihl ihr =>
    intro o ho
    by_cases h : astPrec r < 12
    · simp only [spineOps, if_pos h, List.mem_singleton] at ho
      subst ho; simp [astPrec, rootNode, nodePrec, opPrec]
    · simp only [spineOps, if_neg h, List.mem_append, List.mem_singleton] at ho
      rcases ho with ho | ho
      · have := ihr o ho
        simp only [astPrec, rootNode, nodePrec] at *
        omega
      · subst ho; simp [astPrec, rootNode, nodePrec, opPrec]
  | or l r ihl ihr =>
    intro o ho
    by_cases h : astPrec r < 10
    · simp only [spineOps, if_pos h, List.mem_singleton] at ho
      subst ho; simp [astPrec, rootNode, nodePrec, opPrec]
    · simp only [spineOps, if_neg h, List.mem_append, List.mem_singleton] at ho
      rcases ho with ho | ho
      · have := ihr o ho
        simp only [astPrec, rootNode, nodePrec] at *
        omega
      · subst ho; simp [astPrec, rootNode, nodePrec, opPrec]
  | impl l r ihl ihr =>
    intro o ho
    by_cases h : astPrec r < 8
    · simp only [spineOps, if_pos h, List.mem_singleton] at ho
      subst ho; simp [astPrec, rootNode, nodePrec, opPrec]
    · simp only [spineOps, if_neg h, List.mem_append, List.mem_singleton] at ho
      rcases ho with ho | ho
      · have := ihr o ho
        simp only [astPrec, rootNode, nodePrec] at *
        omega
      · subst ho; simp [astPrec, rootNode, nodePrec, opPrec]
  | eqv l r ihl ihr =>
    intro o ho
    by_cases h : astPrec r < 6
    · simp only [spineOps, if_pos h, List.mem_singleton] at ho
      subst ho; simp [astPrec, rootNode, nodePrec, opPrec]
    · simp only [spineOps, if_neg h, List.mem_append, List.mem_singleton] at ho
      rcases ho with ho | ho
      · have := ihr o ho
        simp only [astPrec, rootNode, nodePrec] at *
        omega
      · subst ho; simp [astPrec, rootNode, nodePrec, opPrec]
  | xor l r ihl ihr =>
    intro o ho
    by_cases h : astPrec r < 6
    · simp only [spineOps, if_pos h, List.mem_singleton] at ho
      subst ho; simp [astPrec, rootNode, nodePrec, opPrec]
    · simp only [spineOps, if_neg h, List.mem_append, List.mem_singleton] at ho
      rcases ho with ho | ho
      · have := ihr o ho
        simp only [astPrec, rootNode, nodePrec] at *
        omega
      · subst ho; simp [astPrec, rootNode, nodePrec, opPrec]

theorem astKinds_ne_nil (F : Ast String) : astKinds F ≠ [] := by
  cases F with
  | const b => simp [astKinds]
  | var v => simp [astKinds]
  | not x => simp [astKinds]
  | and l r => simp [astKinds, wrapK]
  | or l r => simp [astKinds, wrapK]
  | impl l r => simp [astKinds, wrapK]
  | eqv l r => simp [astKinds, wrapK]
  | xor l r => simp [astKinds, wrapK]

/-! ### List-splitting helpers -/

theorem map_eq_append_split {α β : Type} (f : α → β) :
    ∀ (xs : List α) (a b : List β), xs.map f = a ++ b →
      ∃ ys zs, xs = ys ++ zs ∧ ys.map f = a ∧ zs.map f = b := by
  intro xs a
  induction a generalizing xs with
  | nil => intro b h; exact ⟨[], xs, rfl, rfl, h⟩
  | cons x a ih =>
    intro b h
    cases xs with
    | nil => simp at h
    | cons y ys =>
      simp only [List.map_cons, List.cons_append, List.cons.injEq] at h
      obtain ⟨h1, h2⟩ := h
      obtain ⟨ys1, zs1, he, hm1, hm2⟩ := ih ys b h2
      exact ⟨y :: ys1, zs1, by rw [he, List.cons_append],
        by simp [List.map_cons, h1, hm1], hm2⟩

theorem map_eq_cons_split {α β : Type} (f : α → β) (xs : List α) (b : β) (bs : List β)
    (h : xs.map f = b :: bs) : ∃ y ys, xs = y :: ys ∧ f y = b ∧ ys.map f = bs := by
  cases xs with
  | nil => simp at h
  | cons y ys =>
    simp only [List.map_cons, List.cons.injEq] at h
    exact ⟨y, ys, rfl, h.1, h.2⟩

theorem map_eq_singleton_split {α β : Type} (f : α → β) (xs : List α) (b : β)
    (h : xs.map f = [b]) : ∃ y, xs = [y] ∧ f y = b := by
  obtain ⟨y, ys, rfl, h1, h2⟩ := map_eq_cons_split f xs b [] h
  rw [List.map_eq_nil] at h2
  exact ⟨y, by rw [h2], h1⟩

/-! ### Token-kind facts -/

theorem kind_op_elim (t : Tok) (o : OpType) (h : t.kind = .op o) : ∃ off, t = .op o off := by
  cases t with
  | const b off => simp [Tok.kind] at h
  | var n off => simp [Tok.kind] at h
  | op o' off =>
    simp only [Tok.kind, TokKind.op.injEq] at h
    exact ⟨off, by rw [h]⟩
  | paren b off => simp [Tok.kind] at h

theorem kind_paren_elim (t : Tok) (b : Bool) (h : t.kind = .paren b) :
    ∃ off, t = .paren b off := by
  cases t with
  | const b' off => simp [Tok.kind] at h
  | var n off => simp [Tok.kind] at h
  | op o' off => simp [Tok.kind] at h
  | paren b' off =>
    simp only [Tok.kind, TokKind.paren.injEq] at h
    exact ⟨off, by rw [h]⟩

theorem kind_const_elim (t : Tok) (b : Bool) (h : t.kind = .const b) :
    ∃ off, t = .const b off := by
  cases t with
  | const b' off =>
    simp only [Tok.kind, TokKind.const.injEq] at h
    exact ⟨off, by rw [h]⟩
  | var n off => simp [Tok.kind] at h
  | op o' off => simp [Tok.kind] at h
  | paren b' off => simp [Tok.kind] at h

theorem kind_var_elim (t : Tok) (n : String) (h : t.kind = .var n) :
    ∃ off, t = .var n off := by
  cases t with
  | const b' off => simp [Tok.kind] at h
  | var n' off =>
    simp only [Tok.kind, TokKind.var.injEq] at h
    exact ⟨off, by rw [h]⟩
  | op o' off => simp [Tok.kind] at h
  | paren b' off => simp [Tok.kind] at h

theorem op_tok_facts (t : Tok) (o : OpType) (h : t.kind = .op o) :
    isOpeningPar t = false ∧ tokPrec t = opPrec o := by
  obtain ⟨off, rfl⟩ := kind_op_elim t o h
  exact ⟨rfl, rfl⟩

/-- Every token whose kind is drawn from a list of operator kinds is a
non-parenthesis token of the corresponding precedence. -/
theorem opsK_facts (opsF : List Tok) :
    ∀ (os : List OpType), opsF.map Tok.kind = os.map TokKind.op →
      ∀ t ∈ opsF, ∃ o ∈ os, t.kind = .op o := by
  induction opsF with
  | nil => intro os h t ht; simp at ht
  | cons t0 ts ih =>
    intro os h t ht
    cases os with
    | nil => simp at h
    | cons o os =>
      simp only [List.map_cons, List.cons.injEq] at h
      rcases List.mem_cons.mp ht with rfl | ht'
      · exact ⟨o, List.mem_cons_self o os, h.1⟩
      · obtain ⟨o', ho', hk⟩ := ih os h.2 t ht'
        exact ⟨o', List.mem_cons_of_mem o ho', hk⟩

/-! ### The reduce loop as a fold -/

/-- Sequential application of `reduce` to a list of popped operator
tokens (the common core of the three loops that pop the operator
stack). -/
def reduceFold : List Tok → List (Ast String × Tok) → Except ParseErr (List (Ast String × Tok))
  | [], dq => .ok dq
  | t :: ts, dq =>
    match reduceTok t dq with
    | .error e => .error e
    | .ok dq' => reduceFold ts dq'

theorem reduceFold_append (a b : List Tok) (dq : List (Ast String × Tok)) :
    reduceFold (a ++ b) dq =
      match reduceFold a dq with
      | .ok dq' => reduceFold b dq'
      | .error e => .error e := by
  induction a generalizing dq with
  | nil => rfl
  | cons t ts ih =>
    simp only [List.cons_append, reduceFold]
    cases reduceTok t dq with
    | error e => rfl
    | ok dq' => exact ih dq'

theorem reduceTok_not (t : Tok) (h : t.kind = .op .notOp) (x : Ast String) (tx : Tok)
    (dq : List (Ast String × Tok)) :
    reduceTok t ((x, tx) :: dq) = .ok ((.not x, t) :: dq) := by
  obtain ⟨off, rfl⟩ := kind_op_elim t .notOp h
  rfl

theorem reduceTok_bin (t : Tok) (o : OpType) (h : t.kind = .op o) (ho : o ≠ .notOp)
    (r l : Ast String) (tr tl : Tok) (dq : List (Ast String × Tok)) :
    reduceTok t ((r, tr) :: (l, tl) :: dq) = .ok ((opAst o l r, t) :: dq) := by
  obtain ⟨off, rfl⟩ := kind_op_elim t o h
  cases o with
  | notOp => exact absurd rfl ho
  | andOp => rfl
  | orOp => rfl
  | implOp => rfl
  | eqvOp => rfl
  | xorOp => rfl

/-- Folding the reduce step over the pending operators of a spine
rebuilds the tree on top of the deque. -/
theorem reduceFold_spine_bin (o : OpType) (ho : o ≠ .notOp) (l r : Ast String)
    (ihr : ∀ (opsF : List Tok) (dqF dq0 : List (Ast String × Tok)),
      dqF.map Prod.fst = spineAsts r →
      opsF.map Tok.kind = (spineOps r).map TokKind.op →
      ∃ tl, reduceFold opsF (dqF ++ dq0) = .ok ((r, tl) :: dq0)) :
    ∀ (opsF : List Tok) (dqF dq0 : List (Ast String × Tok)),
      dqF.map Prod.fst = (if astPrec r < opPrec o then [r, l] else spineAsts r ++ [l]) →
      opsF.map Tok.kind =
        ((if astPrec r < opPrec o then [o] else spineOps r ++ [o]).map TokKind.op) →
      ∃ tl, reduceFold opsF (dqF ++ dq0) = .ok ((opAst o l r, tl) :: dq0) := by
  intro opsF dqF dq0 hd hk
  by_cases hr : astPrec r < opPrec o
  · rw [if_pos hr] at hd
    rw [if_pos hr] at hk
    obtain ⟨pr, dqF', rfl, hpr, hd'⟩ := map_eq_cons_split _ dqF _ _ hd
    obtain ⟨pl, rfl, hpl⟩ := map_eq_singleton_split _ dqF' _ hd'
    obtain ⟨t, rfl, ht⟩ := map_eq_singleton_split _ opsF _ hk
    refine ⟨t, ?_⟩
    have hred : reduceTok t (pr :: pl :: dq0) = .ok ((opAst o pl.1 pr.1, t) :: dq0) :=
      reduceTok_bin t o ht ho pr.1 pl.1 pr.2 pl.2 dq0
    rw [hpr, hpl] at hred
    simp only [List.cons_append, List.singleton_append, List.nil_append, reduceFold, hred]
  · rw [if_neg hr] at hd
    rw [if_neg hr] at hk
    rw [List.map_append] at hk
    obtain ⟨opsR, opsT, rfl, hk1, hk2⟩ := map_eq_append_split _ opsF _ _ hk
    obtain ⟨t, rfl, ht⟩ := map_eq_singleton_split _ opsT _ hk2
    obtain ⟨dqR, dqT, rfl, hd1, hd2⟩ := map_eq_append_split _ dqF _ _ hd
    obtain ⟨pl, rfl, hpl⟩ := map_eq_singleton_split _ dqT _ hd2
    obtain ⟨tlr, hred⟩ := ihr opsR dqR (pl :: dq0) hd1 hk1
    refine ⟨t, ?_⟩
    rw [List.append_assoc, List.singleton_append, reduceFold_append, hred]
    have hred2 : reduceTok t ((r, tlr) :: pl :: dq0) = .ok ((opAst o pl.1 r, t) :: dq0) :=
      reduceTok_bin t o ht ho r pl.1 tlr pl.2 dq0
    rw [hpl] at hred2
    simp only [reduceFold, hred2]

theorem reduceFold_spine (F : Ast String) :
    ∀ (opsF : List Tok) (dqF dq0 : List (Ast String × Tok)),
      dqF.map Prod.fst = spineAsts F →
      opsF.map Tok.kind = (spineOps F).map TokKind.op →
      ∃ tl, reduceFold opsF (dqF ++ dq0) = .ok ((F, tl) :: dq0) := by
  induction F with
  | const b =>
    intro opsF dqF dq0 hd hk
    simp only [spineOps, List.map_nil, List.map_eq_nil] at hk
    subst hk
    obtain ⟨p, rfl, hp⟩ := map_eq_singleton_split _ dqF _ hd
    exact ⟨p.2, by rw [List.singleton_append, reduceFold, ← hp]⟩
  | var v =>
    intro opsF dqF dq0 hd hk
    simp only [spineOps, List.map_nil, List.map_eq_nil] at hk
    subst hk
    obtain ⟨p, rfl, hp⟩ := map_eq_singleton_split _ dqF _ hd
    exact ⟨p.2, by rw [List.singleton_append, reduceFold, ← hp]⟩
  | not x ihx =>
    intro opsF dqF dq0 hd hk
    by_cases hx : astPrec x < 14
    · rw [spineAsts, if_pos hx] at hd
      rw [spineOps, if_pos hx] at hk
      obtain ⟨p, rfl, hp⟩ := map_eq_singleton_split _ dqF _ hd
      obtain ⟨t, rfl, ht⟩ := map_eq_singleton_split _ opsF _ hk
      refine ⟨t, ?_⟩
      have hred : reduceTok t (p :: dq0) = .ok ((.not p.1, t) :: dq0) :=
        reduceTok_not t ht p.1 p.2 dq0
      rw [hp] at hred
      simp only [List.singleton_append, List.nil_append, reduceFold, hred]
    · rw [spineAsts, if_neg hx] at hd
      rw [spineOps, if_neg hx, List.map_append] at hk
      obtain ⟨opsX, opsT, rfl, hk1, hk2⟩ := map_eq_append_split _ opsF _ _ hk
      obtain ⟨t, rfl, ht⟩ := map_eq_singleton_split _ opsT _ hk2
      obtain ⟨tlx, hred⟩ := ihx opsX dqF dq0 hd hk1
      refine ⟨t, ?_⟩
      rw [reduceFold_append, hred]
      simp only [reduceFold, reduceTok_not t ht x tlx dq0]
  | and l r ihl ihr =>
    intro opsF dqF dq0 hd hk
    exact reduceFold_spine_bin .andOp (by decide) l r ihr opsF dqF dq0 hd hk
  | or l r ihl ihr =>
    intro opsF dqF dq0 hd hk
    exact reduceFold_spine_bin .orOp (by decide) l r ihr opsF dqF dq0 hd hk
  | impl l r ihl ihr =>
    intro opsF dqF dq0 hd hk
    exact reduceFold_spine_bin .implOp (by decide) l r ihr opsF dqF dq0 hd hk
  | eqv l r ihl ihr =>
    intro opsF dqF dq0 hd hk
    exact reduceFold_spine_bin .eqvOp (by decide) l r ihr opsF dqF dq0 hd hk
  | xor l r ihl ihr =>
    intro opsF dqF dq0 hd hk
    exact reduceFold_spine_bin .xorOp (by decide) l r ihr opsF dqF dq0 hd hk

/-! ### The three operator-stack loops over a spine -/

/-- The top of the operator stack does not bind strictly tighter than
`q` (so the reduce loop of an incoming operator of precedence `q`
stops immediately). -/
def HeadOK (ops : List Tok) (q : Nat) : Prop :=
  match ops with
  | [] => True
  | h :: _ => isOpeningPar h = true ∨ tokPrec h ≤ q

theorem HeadOK_mono (ops : List Tok) (q q' : Nat) (h : q ≤ q') (hh : HeadOK ops q) :
    HeadOK ops q' := by
  cases ops with
  | nil => trivial
  | cons t ts =>
    rcases hh with hp | hle
    · exact Or.inl hp
    · exact Or.inr (le_trans hle h)

theorem popReduce_break (q : Nat) (ops : List Tok) (dq : List (Ast String × Tok))
    (h : HeadOK ops q) : popReduceOp q ops dq = .ok (ops, dq) := by
  cases ops with
  | nil => rfl
  | cons t ts =>
    have : (isOpeningPar t = true ∨ tokPrec t ≤ q) := h
    simp only [popReduceOp, if_pos this]

theorem popReduce_all (q : Nat) (opsF ops0 : List Tok) :
    ∀ (dq : List (Ast String × Tok)),
      (∀ t ∈ opsF, isOpeningPar t = false ∧ q < tokPrec t) →
      popReduceOp q (opsF ++ ops0) dq =
        match reduceFold opsF dq with
        | .ok dq' => popReduceOp q ops0 dq'
        | .error e => .error e := by
  induction opsF with
  | nil => intro dq h; rfl
  | cons t ts ih =>
    intro dq h
    have ht := h t (List.mem_cons_self t ts)
    have hcond : ¬(isOpeningPar t = true ∨ tokPrec t ≤ q) := by
      rw [ht.1]
      simp only [Bool.false_eq_true, false_or, not_le]
      exact ht.2
    simp only [List.cons_append, popReduceOp, if_neg hcond, reduceFold]
    cases reduceTok t dq with
    | error e => rfl
    | ok dq' => exact ih dq' fun t' ht' => h t' (List.mem_cons_of_mem t ht')

theorem closeParen_all (offC : Nat) (opsF : List Tok) (pt : Tok) (ops0 : List Tok)
    (hp : isOpeningPar pt = true) :
    ∀ (dq : List (Ast String × Tok)),
      (∀ t ∈ opsF, isOpeningPar t = false) →
      closeParen offC (opsF ++ pt :: ops0) dq =
        match reduceFold opsF dq with
        | .ok dq' => .ok (ops0, dq')
        | .error e => .error e := by
  induction opsF with
  | nil =>
    intro dq h
    obtain ⟨off, rfl⟩ : ∃ off, pt = .paren true off := by
      cases pt with
      | paren b off =>
        cases b with
        | true => exact ⟨off, rfl⟩
        | false => simp [isOpeningPar] at hp
      | const b off => simp [isOpeningPar] at hp
      | var n off => simp [isOpeningPar] at hp
      | op o off => simp [isOpeningPar] at hp
    simp only [List.nil_append, closeParen, reduceTok, isOpeningPar, if_pos, reduceFold]
  | cons t ts ih =>
    intro dq h
    have ht := h t (List.mem_cons_self t ts)
    simp only [List.cons_append, closeParen, reduceFold]
    cases reduceTok t dq with
    | error e => rfl
    | ok dq' =>
      simp only [ht, Bool.false_eq_true, if_false]
      exact ih dq' fun t' ht' => h t' (List.mem_cons_of_mem t ht')

theorem drainOps_all (opsF : List Tok) :
    ∀ (dq : List (Ast String × Tok)),
      (∀ t ∈ opsF, isOpeningPar t = false) →
      drainOps opsF dq = reduceFold opsF dq := by
  induction opsF with
  | nil => intro dq h; rfl
  | cons t ts ih =>
    intro dq h
    have ht := h t (List.mem_cons_self t ts)
    simp only [drainOps, ht, Bool.false_eq_true, if_false, reduceFold]
    cases reduceTok t dq with
    | error e => rfl
    | ok dq' => exact ih dq' fun t' ht' => h t' (List.mem_cons_of_mem t ht')

/-! ### Single steps of the parser loop -/

theorem parseLoop_const (eo : Nat) (b : Bool) (off : Nat) (ts : List Tok)
    (dq : List (Ast String × Tok)) (ops : List Tok) :
    parseLoop eo (Tok.const b off :: ts) dq ops .term =
      parseLoop eo ts ((Ast.const b, Tok.const b off) :: dq) ops .infixNext := by
  simp [parseLoop]

theorem parseLoop_var (eo : Nat) (n : String) (off : Nat) (ts : List Tok)
    (dq : List (Ast String × Tok)) (ops : List Tok) :
    parseLoop eo (Tok.var n off :: ts) dq ops .term =
      parseLoop eo ts ((Ast.var n, Tok.var n off) :: dq) ops .infixNext := by
  simp [parseLoop]

theorem parseLoop_openParen (eo off : Nat) (ts : List Tok)
    (dq : List (Ast String × Tok)) (ops : List Tok) :
    parseLoop eo (Tok.paren true off :: ts) dq ops .term =
      parseLoop eo ts dq (Tok.paren true off :: ops) .term := by
  simp [parseLoop]

theorem parseLoop_closeParen (eo off : Nat) (ts : List Tok)
    (dq : List (Ast String × Tok)) (ops : List Tok) :
    parseLoop eo (Tok.paren false off :: ts) dq ops .infixNext =
      match closeParen off ops dq with
      | .error e => .error e
      | .ok (ops', dq') => parseLoop eo ts dq' ops' .infixNext := by
  simp [parseLoop]

theorem parseLoop_notTok (eo off : Nat) (ts : List Tok)
    (dq : List (Ast String × Tok)) (ops : List Tok) :
    parseLoop eo (Tok.op .notOp off :: ts) dq ops .term =
      match popReduceOp 14 ops dq with
      | .error e => .error e
      | .ok (ops', dq') => parseLoop eo ts dq' (Tok.op .notOp off :: ops') .term := by
  simp [parseLoop, opPrec]

theorem parseLoop_binTok (eo : Nat) (o : OpType) (ho : o ≠ .notOp) (off : Nat)
    (ts : List Tok) (dq : List (Ast String × Tok)) (ops : List Tok) :
    parseLoop eo (Tok.op o off :: ts) dq ops .infixNext =
      match popReduceOp (opPrec o) ops dq with
      | .error e => .error e
      | .ok (ops', dq') => parseLoop eo ts dq' (Tok.op o off :: ops') .term := by
  simp [parseLoop, ho]

/-! ### Uniform equations for the five binary operators -/

theorem astKinds_bin (o : OpType) (ho : o ≠ .notOp) (l r : Ast String) :
    astKinds (opAst o l r) =
      wrapK (opPrec o) l (astKinds l) ++ (.op o :: wrapK (opPrec o) r (astKinds r)) := by
  cases o with
  | notOp => exact absurd rfl ho
  | andOp => rfl
  | orOp => rfl
  | implOp => rfl
  | eqvOp => rfl
  | xorOp => rfl

theorem astPrec_bin (o : OpType) (ho : o ≠ .notOp) (l r : Ast String) :
    astPrec (opAst o l r) = opPrec o := by
  cases o with
  | notOp => exact absurd rfl ho
  | andOp => rfl
  | orOp => rfl
  | implOp => rfl
  | eqvOp => rfl
  | xorOp => rfl

theorem spineAsts_bin (o : OpType) (ho : o ≠ .notOp) (l r : Ast String) :
    spineAsts (opAst o l r) =
      if astPrec r < opPrec o then [r, l] else spineAsts r ++ [l] := by
  cases o with
  | notOp => exact absurd rfl ho
  | andOp => rfl
  | orOp => rfl
  | implOp => rfl
  | eqvOp => rfl
  | xorOp => rfl

theorem spineOps_bin (o : OpType) (ho : o ≠ .notOp) (l r : Ast String) :
    spineOps (opAst o l r) =
      if astPrec r < opPrec o then [o] else spineOps r ++ [o] := by
  cases o with
  | notOp => exact absurd rfl ho
  | andOp => rfl
  | orOp => rfl
  | implOp => rfl
  | eqvOp => rfl
  | xorOp => rfl

theorem RightLeanB_bin (o : OpType) (ho : o ≠ .notOp) (l r : Ast String) :
    RightLeanB (opAst o l r) =
      ((astPrec l != opPrec o) && (RightLeanB l && RightLeanB r)) := by
  cases o with
  | notOp => exact absurd rfl ho
  | andOp => rfl
  | orOp => rfl
  | implOp => rfl
  | eqvOp => rfl
  | xorOp => rfl

/-! ### Simulation of the shunting-yard loop on printed token streams -/

/-- Processing the printed tokens of a right-leaning tree `F` from a
term-expecting state pushes `F`'s spine onto the deque and operator
stack (for any offsets carried by the tokens and any continuation). -/
def SimP (F : Ast String) : Prop :=
  ∀ (ts rest : List Tok) (dq : List (Ast String × Tok)) (ops : List Tok) (eo : Nat),
    ts.map Tok.kind = astKinds F →
    RightLeanB F = true →
    HeadOK ops (astPrec F) →
    ∃ (dqF : List (Ast String × Tok)) (opsF : List Tok),
      dqF.map Prod.fst = spineAsts F ∧
      opsF.map Tok.kind = (spineOps F).map TokKind.op ∧
      parseLoop eo (ts ++ rest) dq ops .term =
        parseLoop eo rest (dqF ++ dq) (opsF ++ ops) .infixNext

/-- An operand printed behind an operator of precedence `p`
(parenthesized iff it binds strictly looser): after its tokens, either
the complete operand sits on the deque (parenthesized case) or its
spine does. -/
theorem sim_operand (x : Ast String) (hx : SimP x) (p : Nat) :
    ∀ (ts rest : List Tok) (dq : List (Ast String × Tok)) (ops : List Tok) (eo : Nat),
      ts.map Tok.kind = wrapK p x (astKinds x) →
      RightLeanB x = true →
      HeadOK ops p →
      ∃ (dqF : List (Ast String × Tok)) (opsF : List Tok),
        dqF.map Prod.fst = (if astPrec x < p then [x] else spineAsts x) ∧
        opsF.map Tok.kind =
          ((if astPrec x < p then ([] : List OpType) else spineOps x).map TokKind.op) ∧
        parseLoop eo (ts ++ rest) dq ops .term =
          parseLoop eo rest (dqF ++ dq) (opsF ++ ops) .infixNext := by
  intro ts rest dq ops eo hk hrl hho
  by_cases hxp : astPrec x < p
  · rw [wrapK, if_pos hxp] at hk
    obtain ⟨tpo, ts1, rfl, hpo, hk1⟩ := map_eq_cons_split _ ts _ _ hk
    obtain ⟨tsx, tsc, rfl, hkx, hkc⟩ := map_eq_append_split _ ts1 _ _ hk1
    obtain ⟨tpc, rfl, hpc⟩ := map_eq_singleton_split _ tsc _ hkc
    obtain ⟨offo, rfl⟩ := kind_paren_elim tpo true hpo
    obtain ⟨offc, rfl⟩ := kind_paren_elim tpc false hpc
    obtain ⟨dqX, opsX, hdX, hoX, heq⟩ :=
      hx tsx (Tok.paren false offc :: rest) dq (Tok.paren true offo :: ops) eo hkx hrl
        (Or.inl rfl)
    have hnp : ∀ t ∈ opsX, isOpeningPar t = false := by
      intro t ht
      obtain ⟨o', _, hko⟩ := opsK_facts opsX _ hoX t ht
      exact (op_tok_facts t o' hko).1
    obtain ⟨tlx, hfold⟩ := reduceFold_spine x opsX dqX dq hdX hoX
    refine ⟨[(x, tlx)], [], by simp [hxp], by simp [hxp], ?_⟩
    have e1 : (Tok.paren true offo :: (tsx ++ [Tok.paren false offc])) ++ rest =
        Tok.paren true offo :: (tsx ++ (Tok.paren false offc :: rest)) := by simp
    rw [e1, parseLoop_openParen, heq, parseLoop_closeParen,
      closeParen_all offc opsX (Tok.paren true offo) ops rfl (dqX ++ dq) hnp, hfold]
    rfl
  · rw [wrapK, if_neg hxp] at hk
    obtain ⟨dqX, opsX, hdX, hoX, heq⟩ :=
      hx ts rest dq ops eo hk hrl (HeadOK_mono ops p (astPrec x) (le_of_not_lt hxp) hho)
    exact ⟨dqX, opsX, by rw [if_neg hxp]; exact hdX, by rw [if_neg hxp]; exact hoX, heq⟩

theorem sim_const (b : Bool) : SimP (.const b) := by
  intro ts rest dq ops eo hk hrl hho
  obtain ⟨t, rfl, ht⟩ := map_eq_singleton_split _ ts _ hk
  obtain ⟨off, rfl⟩ := kind_const_elim t b ht
  refine ⟨[(.const b, .const b off)], [], rfl, rfl, ?_⟩
  rw [List.singleton_append, parseLoop_const]
  rfl

theorem sim_var (v : String) : SimP (.var v) := by
  intro ts rest dq ops eo hk hrl hho
  obtain ⟨t, rfl, ht⟩ := map_eq_singleton_split _ ts _ hk
  obtain ⟨off, rfl⟩ := kind_var_elim t v ht
  refine ⟨[(.var v, .var v off)], [], rfl, rfl, ?_⟩
  rw [List.singleton_append, parseLoop_var]
  rfl

theorem sim_not (x : Ast String) (ihx : SimP x) : SimP (.not x) := by
  intro ts rest dq ops eo hk hrl hho
  obtain ⟨tn, ts1, rfl, hkn, hk1⟩ := map_eq_cons_split _ ts _ _ hk
  obtain ⟨offn, rfl⟩ := kind_op_elim tn .notOp hkn
  obtain ⟨dqX, opsX, hdX, hoX, heq⟩ :=
    sim_operand x ihx 14 ts1 rest dq (Tok.op .notOp offn :: ops) eo hk1 hrl
      (Or.inr (by simp [tokPrec, opPrec]))
  refine ⟨dqX, opsX ++ [Tok.op .notOp offn], hdX, ?_, ?_⟩
  · rw [List.map_append, hoX]
    by_cases hc : astPrec x < 14
    · simp [spineOps, hc, Tok.kind]
    · simp [spineOps, hc, Tok.kind, List.map_append]
  · have step : parseLoop eo ((Tok.op .notOp offn :: ts1) ++ rest) dq ops .term =
        parseLoop eo (ts1 ++ rest) dq (Tok.op .notOp offn :: ops) .term := by
      rw [List.cons_append, parseLoop_notTok, popReduce_break 14 ops dq hho]
    rw [step, heq, List.append_assoc, List.singleton_append]

theorem sim_bin (o : OpType) (ho : o ≠ .notOp) (l r : Ast String)
    (ihl : SimP l) (ihr : SimP r) : SimP (opAst o l r) := by
  intro ts rest dq ops eo hk hrl hho
  rw [astKinds_bin o ho] at hk
  rw [astPrec_bin o ho] at hho
  rw [RightLeanB_bin o ho] at hrl
  simp only [Bool.and_eq_true, bne_iff_ne, ne_eq] at hrl
  obtain ⟨hne, hrll, hrlr⟩ := hrl
  obtain ⟨tsl, ts2, rfl, hkl, hk2⟩ := map_eq_append_split _ ts _ _ hk
  obtain ⟨to', ts3, rfl, hko, hkr⟩ := map_eq_cons_split _ ts2 _ _ hk2
  obtain ⟨offo, rfl⟩ := kind_op_elim to' o hko
  obtain ⟨dqL, opsL, hdL, hoL, heqL⟩ :=
    sim_operand l ihl (opPrec o) tsl (Tok.op o offo :: (ts3 ++ rest)) dq ops eo hkl hrll hho
  -- the operator's reduce loop completes the left operand on the deque
  have hpop : ∃ pl : Ast String × Tok, pl.1 = l ∧
      popReduceOp (opPrec o) (opsL ++ ops) (dqL ++ dq) = .ok (ops, pl :: dq) := by
    by_cases hlp : astPrec l < opPrec o
    · rw [if_pos hlp] at hdL
      rw [if_pos hlp] at hoL
      simp only [List.map_nil, List.map_eq_nil] at hoL
      subst hoL
      obtain ⟨pl, rfl, hpl⟩ := map_eq_singleton_split _ dqL _ hdL
      exact ⟨pl, hpl, by
        rw [List.nil_append, List.singleton_append,
          popReduce_break (opPrec o) ops (pl :: dq) hho]⟩
    · rw [if_neg hlp] at hdL
      rw [if_neg hlp] at hoL
      have hgt : opPrec o < astPrec l := by
        rcases lt_or_eq_of_le (le_of_not_lt hlp) with h | h
        · exact h
        · exact absurd h.symm hne
      have hall : ∀ t ∈ opsL, isOpeningPar t = false ∧ opPrec o < tokPrec t := by
        intro t ht
        obtain ⟨o', ho', hko'⟩ := opsK_facts opsL _ hoL t ht
        obtain ⟨h1, h2⟩ := op_tok_facts t o' hko'
        exact ⟨h1, by rw [h2]; exact lt_of_lt_of_le hgt (spineOps_prec l o' ho')⟩
      obtain ⟨tll, hfold⟩ := reduceFold_spine l opsL dqL dq hdL hoL
      refine ⟨(l, tll), rfl, ?_⟩
      rw [popReduce_all (opPrec o) opsL ops (dqL ++ dq) hall, hfold]
      exact popReduce_break (opPrec o) ops ((l, tll) :: dq) hho
  obtain ⟨pl, hpl, hpop⟩ := hpop
  obtain ⟨dqR, opsR, hdR, hoR, heqR⟩ :=
    sim_operand r ihr (opPrec o) ts3 rest (pl :: dq) (Tok.op o offo :: ops) eo hkr hrlr
      (Or.inr (by simp [tokPrec]))
  refine ⟨dqR ++ [pl], opsR ++ [Tok.op o offo], ?_, ?_, ?_⟩
  · rw [List.map_append, hdR, spineAsts_bin o ho]
    by_cases hc : astPrec r < opPrec o
    · simp [hc, hpl]
    · simp [hc, hpl]
  · rw [List.map_append, hoR, spineOps_bin o ho]
    by_cases hc : astPrec r < opPrec o
    · simp [hc, Tok.kind]
    · simp [hc, Tok.kind, List.map_append]
  · have e1 : (tsl ++ (Tok.op o offo :: ts3)) ++ rest =
        tsl ++ (Tok.op o offo :: (ts3 ++ rest)) := by simp
    have step : parseLoop eo (Tok.op o offo :: (ts3 ++ rest)) (dqL ++ dq) (opsL ++ ops)
        .infixNext = parseLoop eo (ts3 ++ rest) (pl :: dq) (Tok.op o offo :: ops) .term := by
      rw [parseLoop_binTok eo o ho, hpop]
    rw [e1, heqL, step, heqR, List.append_assoc, List.append_assoc,
      List.singleton_append, List.singleton_append]

theorem simP_all (F : Ast String) : SimP F := by
  induction F with
  | const b => exact sim_const b
  | var v => exact sim_var v
  | not x ihx => exact sim_not x ihx
  | and l r ihl ihr => exact sim_bin .andOp (by decide) l r ihl ihr
  | or l r ihl ihr => exact sim_bin .orOp (by decide) l r ihl ihr
  | impl l r ihl ihr => exact sim_bin .implOp (by decide) l r ihl ihr
  | eqv l r ihl ihr => exact sim_bin .eqvOp (by decide) l r ihl ihr
  | xor l r ihl ihr => exact sim_bin .xorOp (by decide) l r ihl ihr

/-- Any token stream with the printed kinds of a right-leaning tree
parses back to that tree. -/
theorem parseLoop_kinds (F : Ast String) (ts : List Tok) (eo : Nat)
    (hk : ts.map Tok.kind = astKinds F) (hrl : RightLeanB F = true) :
    parseLoop eo ts [] [] .term = .ok F := by
  obtain ⟨dqF, opsF, hd, hop, heq⟩ := simP_all F ts [] [] [] eo hk hrl trivial
  have hts : ts ++ ([] : List Tok) = ts := List.append_nil ts
  rw [← hts, heq]
  have hnp : ∀ t ∈ opsF, isOpeningPar t = false := by
    intro t ht
    obtain ⟨o', _, hko⟩ := opsK_facts opsF _ hop t ht
    exact (op_tok_facts t o' hko).1
  obtain ⟨tl, hfold⟩ := reduceFold_spine F opsF dqF [] hd hop
  rw [List.append_nil] at hfold
  have hdrain : drainOps (opsF ++ []) (dqF ++ []) = .ok [(F, tl)] := by
    rw [List.append_nil, List.append_nil, drainOps_all opsF dqF hnp, hfold]
  show parseLoop eo [] (dqF ++ []) (opsF ++ []) .infixNext = .ok F
  simp only [parseLoop, hdrain]
  rfl

/-! ### The scanner on printed strings -/

/-- Iterated `next_token` steps: starting from the characters `cs` at
offset `i`, the scanner emits the tokens `ts` and is left with the
characters `cs'` at offset `i'`. -/
inductive Emits : List Char → Nat → List Tok → List Char → Nat → Prop where
  | refl (cs : List Char) (i : Nat) : Emits cs i [] cs i
  | step {cs : List Char} {i : Nat} {t : Tok} {cs1 : List Char} {i1 : Nat}
      {ts : List Tok} {cs' : List Char} {i' : Nat}
      (h : nextToken cs i = .ok (some (t, cs1, i1))) (h2 : Emits cs1 i1 ts cs' i') :
      Emits cs i (t :: ts) cs' i'

theorem Emits.trans {cs : List Char} {i : Nat} {ts1 : List Tok} {cs1 : List Char} {i1 : Nat}
    {ts2 : List Tok} {cs2 : List Char} {i2 : Nat}
    (h1 : Emits cs i ts1 cs1 i1) (h2 : Emits cs1 i1 ts2 cs2 i2) :
    Emits cs i (ts1 ++ ts2) cs2 i2 := by
  induction h1 with
  | refl => exact h2
  | step h e ih => exact .step h (ih h2)

/-- Offset-generic scanning: from any starting offset, the scanner cuts
`cs` into tokens of the kinds `ks` followed by the characters `cs'`. -/
def EmitsK (cs : List Char) (ks : List TokKind) (cs' : List Char) : Prop :=
  ∀ i : Nat, ∃ (ts : List Tok) (i' : Nat), ts.map Tok.kind = ks ∧ Emits cs i ts cs' i'

theorem EmitsK_trans {cs : List Char} {ks1 : List TokKind} {cs1 : List Char}
    {ks2 : List TokKind} {cs2 : List Char}
    (h1 : EmitsK cs ks1 cs1) (h2 : EmitsK cs1 ks2 cs2) : EmitsK cs (ks1 ++ ks2) cs2 := by
  intro i
  obtain ⟨ts1, i1, hk1, he1⟩ := h1 i
  obtain ⟨ts2, i2, hk2, he2⟩ := h2 i1
  exact ⟨ts1 ++ ts2, i2, by rw [List.map_append, hk1, hk2], he1.trans he2⟩

/-- A leading blank is skipped inside the next `next_token` call. -/
theorem EmitsK_space (cs : List Char) (ks : List TokKind) (cs' : List Char)
    (h : EmitsK cs ks cs') (hne : ks ≠ []) : EmitsK (' ' :: cs) ks cs' := by
  intro i
  obtain ⟨ts, i', hk, he⟩ := h (i + 1)
  refine ⟨ts, i', hk, ?_⟩
  cases he with
  | refl => exact absurd hk.symm (by simpa using hne)
  | step hnt he2 =>
    exact .step (show nextToken (' ' :: _) i = _ from hnt) he2

theorem emitsK_open (cs : List Char) : EmitsK ('(' :: cs) [.paren true] cs :=
  fun i => ⟨[.paren true i], i + 1, rfl, .step rfl (.refl _ _)⟩

theorem emitsK_close (cs : List Char) : EmitsK (')' :: cs) [.paren false] cs :=
  fun i => ⟨[.paren false i], i + 1, rfl, .step rfl (.refl _ _)⟩

theorem emitsK_tilde (cs : List Char) : EmitsK ('~' :: cs) [.op .notOp] cs :=
  fun i => ⟨[.op .notOp i], i + 1, rfl, .step rfl (.refl _ _)⟩

theorem emitsK_amp (cs : List Char) : EmitsK ('&' :: cs) [.op .andOp] cs :=
  fun i => ⟨[.op .andOp i], i + 1, rfl, .step rfl (.refl _ _)⟩

theorem emitsK_pipe (cs : List Char) : EmitsK ('|' :: cs) [.op .orOp] cs :=
  fun i => ⟨[.op .orOp i], i + 1, rfl, .step rfl (.refl _ _)⟩

theorem emitsK_gt (cs : List Char) : EmitsK ('>' :: cs) [.op .implOp] cs :=
  fun i => ⟨[.op .implOp i], i + 1, rfl, .step rfl (.refl _ _)⟩

theorem emitsK_eq (cs : List Char) : EmitsK ('=' :: cs) [.op .eqvOp] cs :=
  fun i => ⟨[.op .eqvOp i], i + 1, rfl, .step rfl (.refl _ _)⟩

theorem emitsK_caret (cs : List Char) : EmitsK ('^' :: cs) [.op .xorOp] cs :=
  fun i => ⟨[.op .xorOp i], i + 1, rfl, .step rfl (.refl _ _)⟩

theorem emitsK_constT (cs : List Char) : EmitsK ('\\' :: 'T' :: cs) [.const true] cs :=
  fun i => ⟨[.const true i], i + 2, rfl, .step rfl (.refl _ _)⟩

theorem emitsK_constF (cs : List Char) : EmitsK ('\\' :: 'F' :: cs) [.const false] cs :=
  fun i => ⟨[.const false i], i + 2, rfl, .step rfl (.refl _ _)⟩

/-- The bracket scan returns exactly the characters before the first
`]`. -/
theorem scanBracket_complete (nm rest : List Char) (h : (']' : Char) ∉ nm) :
    scanBracket (nm ++ ']' :: rest) = some (nm, rest) := by
  induction nm with
  | nil => simp [scanBracket]
  | cons c cs ih =>
    have hc : c ≠ ']' := fun hc => h (hc ▸ List.mem_cons_self c cs)
    have h2 : (']' : Char) ∉ cs := fun h2 => h (List.mem_cons_of_mem c h2)
    simp only [List.cons_append, scanBracket, if_neg hc, List.append_eq, ih h2,
      Option.map_some']

theorem nextToken_bracket (nm rest : List Char) (j : Nat) (h : (']' : Char) ∉ nm) :
    nextToken ('[' :: (nm ++ ']' :: rest)) j =
      .ok (some (.var (String.mk nm) j, rest, j + 2 + nm.length)) := by
  show scanTok ('[' :: (nm ++ ']' :: rest)) j = _
  rw [scanTok, scanBracket_complete nm rest h]

theorem emitsK_bracket (nm cs : List Char) (h : (']' : Char) ∉ nm) :
    EmitsK ('[' :: (nm ++ ']' :: cs)) [.var (String.mk nm)] cs :=
  fun i => ⟨[.var (String.mk nm) i], i + 2 + nm.length, rfl,
    .step (nextToken_bracket nm cs i h) (.refl _ _)⟩

/-! ### Scanning the printed infix form -/

/-- The variable names occurring in a tree. -/
def astNames : Ast String → List String
  | .const _ => []
  | .var v => [v]
  | .not x => astNames x
  | .and l r => astNames l ++ astNames r
  | .or l r => astNames l ++ astNames r
  | .impl l r => astNames l ++ astNames r
  | .eqv l r => astNames l ++ astNames r
  | .xor l r => astNames l ++ astNames r

/-- No variable name contains `]` (true of every formula the parser
produces, since word tokens are alphanumeric and bracket tokens stop at
the first `]`). -/
def NamesOk (F : Ast String) : Prop := ∀ n ∈ astNames F, (']' : Char) ∉ n.data

theorem wrapK_astKinds_ne_nil (p : Nat) (x : Ast String) : wrapK p x (astKinds x) ≠ [] := by
  rw [wrapK]
  split
  · simp
  · exact astKinds_ne_nil x

/-- Scanning a printed operand (parenthesized iff it binds strictly
looser than `p`). -/
theorem emits_operand (p : Nat) (x : Ast String)
    (ihx : ∀ rest, EmitsK ((infixT x).data ++ rest) (astKinds x) rest) (rest : List Char) :
    EmitsK ((if astPrec x < p then "(" ++ infixT x ++ ")" else infixT x).data ++ rest)
      (wrapK p x (astKinds x)) rest := by
  by_cases hc : astPrec x < p
  · rw [if_pos hc, wrapK, if_pos hc]
    have hdata : ("(" ++ infixT x ++ ")").data ++ rest =
        '(' :: ((infixT x).data ++ (')' :: rest)) := by
      rw [String.data_append, String.data_append]
      simp
    rw [hdata]
    exact EmitsK_trans (emitsK_open _) (EmitsK_trans (ihx _) (emitsK_close _))
  · rw [if_neg hc, wrapK, if_neg hc]
    exact ihx rest

/-- Scanning a printed binary node. -/
theorem emits_binJoin (p : Nat) (sym : String) (o : OpType) (l r : Ast String)
    (hsym : ∀ cs : List Char, EmitsK (sym.data ++ cs) [TokKind.op o] cs)
    (ihl : ∀ rest, EmitsK ((infixT l).data ++ rest) (astKinds l) rest)
    (ihr : ∀ rest, EmitsK ((infixT r).data ++ rest) (astKinds r) rest)
    (rest : List Char) :
    EmitsK ((binJoin p sym (astPrec l) (infixT l) (astPrec r) (infixT r)).data ++ rest)
      (wrapK p l (astKinds l) ++ (TokKind.op o :: wrapK p r (astKinds r))) rest := by
  have hR := emits_operand p r ihr rest
  have hRs : EmitsK
      (' ' :: ((if astPrec r < p then "(" ++ infixT r ++ ")" else infixT r).data ++ rest))
      (wrapK p r (astKinds r)) rest :=
    EmitsK_space _ _ _ hR (wrapK_astKinds_ne_nil p r)
  have hOp : EmitsK
      (sym.data ++ (' ' ::
        ((if astPrec r < p then "(" ++ infixT r ++ ")" else infixT r).data ++ rest)))
      [TokKind.op o]
      (' ' :: ((if astPrec r < p then "(" ++ infixT r ++ ")" else infixT r).data ++ rest)) :=
    hsym _
  have hOps : EmitsK
      (' ' :: (sym.data ++ (' ' ::
        ((if astPrec r < p then "(" ++ infixT r ++ ")" else infixT r).data ++ rest))))
      [TokKind.op o]
      (' ' :: ((if astPrec r < p then "(" ++ infixT r ++ ")" else infixT r).data ++ rest)) :=
    EmitsK_space _ _ _ hOp (by simp)
  have hL := emits_operand p l ihl
    (' ' :: (sym.data ++ (' ' ::
      ((if astPrec r < p then "(" ++ infixT r ++ ")" else infixT r).data ++ rest))))
  have hdata : (binJoin p sym (astPrec l) (infixT l) (astPrec r) (infixT r)).data ++ rest =
      (if astPrec l < p then "(" ++ infixT l ++ ")" else infixT l).data ++
        (' ' :: (sym.data ++ (' ' ::
          ((if astPrec r < p then "(" ++ infixT r ++ ")" else infixT r).data ++ rest)))) := by
    rw [binJoin, String.data_append, String.data_append, String.data_append,
      String.data_append]
    simp [List.append_assoc]
  rw [hdata]
  exact EmitsK_trans hL (EmitsK_trans hOps hRs)

/-- The scanner cuts the printed infix form of a tree (whose variable
names are `]`-free) into exactly the printed token kinds. -/
theorem emits_infixT (F : Ast String) :
    NamesOk F → ∀ rest, EmitsK ((infixT F).data ++ rest) (astKinds F) rest := by
  induction F with
  | const b =>
    intro _ rest
    cases b with
    | true => exact emitsK_constT rest
    | false => exact emitsK_constF rest
  | var v =>
    intro hn rest
    have hv : (']' : Char) ∉ v.data := hn v (by simp [astNames])
    have hdata : (infixT (.var v)).data ++ rest = '[' :: (v.data ++ (']' :: rest)) := by
      show ("[" ++ v ++ "]").data ++ rest = _
      rw [String.data_append, String.data_append]
      simp
    rw [show astKinds (.var v) = [TokKind.var v] from rfl, hdata]
    exact show EmitsK _ [TokKind.var (String.mk v.data)] _ from emitsK_bracket v.data rest hv
  | not x ihx =>
    intro hn rest
    have ihx' := ihx hn
    by_cases hc : astPrec x < 14
    · have hdata : (infixT (.not x)).data ++ rest =
          '~' :: ('(' :: ((infixT x).data ++ (')' :: rest))) := by
        show ("~" ++ (if astPrec x < 14 then "(" ++ infixT x ++ ")" else infixT x)).data
            ++ rest = _
        rw [if_pos hc, String.data_append, String.data_append, String.data_append]
        simp
      have hkind : astKinds (.not x) =
          TokKind.op .notOp :: (TokKind.paren true :: (astKinds x ++ [TokKind.paren false])) := by
        simp [astKinds, wrapK, if_pos hc]
      rw [hdata, hkind]
      exact EmitsK_trans (emitsK_tilde _)
        (EmitsK_trans (emitsK_open _) (EmitsK_trans (ihx' _) (emitsK_close _)))
    · have hdata : (infixT (.not x)).data ++ rest = '~' :: ((infixT x).data ++ rest) := by
        show ("~" ++ (if astPrec x < 14 then "(" ++ infixT x ++ ")" else infixT x)).data
            ++ rest = _
        rw [if_neg hc, String.data_append]
        simp
      have hkind : astKinds (.not x) = TokKind.op .notOp :: astKinds x := by
        simp [astKinds, wrapK, if_neg hc]
      rw [hdata, hkind]
      exact EmitsK_trans (emitsK_tilde _) (ihx' _)
  | and l r ihl ihr =>
    intro hn rest
    have hnl : NamesOk l := fun n h => hn n (by simp [astNames, h])
    have hnr : NamesOk r := fun n h => hn n (by simp [astNames, h])
    exact emits_binJoin 12 "&" .andOp l r (fun cs => emitsK_amp cs) (ihl hnl) (ihr hnr) rest
  | or l r ihl ihr =>
    intro hn rest
    have hnl : NamesOk l := fun n h => hn n (by simp [astNames, h])
    have hnr : NamesOk r := fun n h => hn n (by simp [astNames, h])
    exact emits_binJoin 10 "|" .orOp l r (fun cs => emitsK_pipe cs) (ihl hnl) (ihr hnr) rest
  | impl l r ihl ihr =>
    intro hn rest
    have hnl : NamesOk l := fun n h => hn n (by simp [astNames, h])
    have hnr : NamesOk r := fun n h => hn n (by simp [astNames, h])
    exact emits_binJoin 8 ">" .implOp l r (fun cs => emitsK_gt cs) (ihl hnl) (ihr hnr) rest
  | eqv l r ihl ihr =>
    intro hn rest
    have hnl : NamesOk l := fun n h => hn n (by simp [astNames, h])
    have hnr : NamesOk r := fun n h => hn n (by simp [astNames, h])
    exact emits_binJoin 6 "=" .eqvOp l r (fun cs => emitsK_eq cs) (ihl hnl) (ihr hnr) rest
  | xor l r ihl ihr =>
    intro hn rest
    have hnl : NamesOk l := fun n h => hn n (by simp [astNames, h])
    have hnr : NamesOk r := fun n h => hn n (by simp [astNames, h])
    exact emits_binJoin 6 "^" .xorOp l r (fun cs => emitsK_caret cs) (ihl hnl) (ihr hnr) rest

/-- A scan run determines a prefix of `tokenize`'s output. -/
theorem tokenize_of_emits (cs : List Char) (i : Nat) (ts : List Tok) (cs' : List Char)
    (i' : Nat) (h : Emits cs i ts cs' i') :
    tokenize cs i =
      match tokenize cs' i' with
      | .ok p => .ok (ts ++ p.1, p.2)
      | .error e => .error e := by
  induction h with
  | refl =>
    rename_i cs0 i0
    cases htok : tokenize cs0 i0 with
    | ok p => rfl
    | error e => rfl
  | step hnt he ih =>
    rename_i cs0 i0 t cs1 i1 ts1 cs1' i1'
    have hlt := nextToken_consumes cs0 i0 t cs1 i1 hnt
    rw [tokenize, tokenizeF, hnt]
    dsimp only
    rw [tokenizeF_fuel_irrel cs0.length (cs1.length + 1) cs1 i1 hlt (Nat.lt_succ_self _)]
    rw [show tokenizeF (cs1.length + 1) cs1 i1 = tokenize cs1 i1 from rfl, ih]
    cases tokenize cs1' i1' with
    | ok p => rfl
    | error e => rfl

/-- A scan run that consumes the whole input determines `tokenize`. -/
theorem tokenize_of_emits_nil (cs : List Char) (i : Nat) (ts : List Tok) (i' : Nat)
    (h : Emits cs i ts [] i') : tokenize cs i = .ok (ts, i') := by
  rw [tokenize_of_emits cs i ts [] i' h]
  rw [show tokenize [] i' = .ok ([], i') from rfl]
  simp

theorem tokenize_infixT (F : Ast String) (hn : NamesOk F) :
    ∃ (ts : List Tok) (i' : Nat),
      ts.map Tok.kind = astKinds F ∧ tokenize (infixT F).data 0 = .ok (ts, i') := by
  have h := emits_infixT F hn []
  rw [List.append_nil] at h
  obtain ⟨ts, i', hk, he⟩ := h 0
  exact ⟨ts, i', hk, tokenize_of_emits_nil _ _ _ _ he⟩

/-- Re-parsing the printed infix form of a right-leaning tree with
`]`-free names yields the tree back. -/
theorem parse_toInfixStr (F : Ast String) (hn : NamesOk F) (hrl : RightLeanB F = true) :
    parse (Formula.toInfixStr F) = .ok F := by
  rw [toInfixStr_eq_infixT]
  obtain ⟨ts, i', hk, htok⟩ := tokenize_infixT F hn
  rw [parse, htok]
  exact parseLoop_kinds F ts i' hk hrl

/-! ### Variable names produced by the parser are free of `]` -/

theorem isalnumC_ne_rbracket (c : Char) (h : isalnumC c = true) : c ≠ ']' := by
  intro he
  subst he
  exact absurd h (by decide)

theorem scanWord_chars (cs : List Char) : ∀ c ∈ (scanWord cs).1, isalnumC c = true ∨ c = '_' := by
  induction cs with
  | nil => intro c hc; simp [scanWord] at hc
  | cons c0 cs ih =>
    intro c hc
    by_cases h : isalnumC c0 ∨ c0 = '_'
    · simp only [scanWord, if_pos h] at hc
      rcases List.mem_cons.mp hc with rfl | hc'
      · rcases h with h | h
        · exact Or.inl h
        · exact Or.inr h
      · exact ih c hc'
    · simp only [scanWord, if_neg h] at hc
      simp at hc

theorem scanBracket_names (cs : List Char) :
    ∀ nm r, scanBracket cs = some (nm, r) → (']' : Char) ∉ nm := by
  induction cs with
  | nil => intro nm r h; simp [scanBracket] at h
  | cons c cs ih =>
    intro nm r h
    by_cases hc : c = ']'
    · rw [scanBracket, if_pos hc] at h
      cases h
      simp
    · rw [scanBracket, if_neg hc] at h
      cases hsc : scanBracket cs with
      | none => rw [hsc] at h; simp at h
      | some q =>
        rw [hsc, Option.map_some'] at h
        cases h
        intro hmem
        rcases List.mem_cons.mp hmem with rfl | hmem'
        · exact hc rfl
        · exact ih q.1 q.2 hsc hmem'

theorem scanTok_var_name (cs : List Char) (j : Nat) (n : String) (off : Nat)
    (rest : List Char) (i' : Nat)
    (h : scanTok cs j = .ok (some (.var n off, rest, i'))) : (']' : Char) ∉ n.data := by
  rw [scanTok.eq_def] at h
  split at h
  · simp at h
  · simp at h
  · simp at h
  · split at h
    · simp at h
    · rename_i heq
      simp only [Except.ok.injEq, Option.some.injEq, Prod.mk.injEq, Tok.var.injEq] at h
      obtain ⟨⟨hn, _⟩, _⟩ := h
      rw [← hn]
      exact scanBracket_names _ _ _ heq
  · split at h
    · rename_i hal
      simp only [Except.ok.injEq, Option.some.injEq, Prod.mk.injEq, Tok.var.injEq] at h
      obtain ⟨⟨hn, _⟩, _⟩ := h
      rw [← hn]
      intro hmem
      rcases List.mem_cons.mp hmem with heq | hmem'
      · exact isalnumC_ne_rbracket _ hal heq.symm
      · rcases scanWord_chars _ _ hmem' with hc | hc
        · exact isalnumC_ne_rbracket _ hc rfl
        · simp at hc
    · split at h
      · simp at h
      · split at h
        · simp at h
        · split at h
          · simp at h
          · split at h
            · simp at h
            · split at h
              · simp at h
              · split at h
                · simp at h
                · split at h
                  · simp at h
                  · split at h
                    · simp at h
                    · simp at h
                    · simp at h
                    · simp at h

theorem nextToken_var_name (cs : List Char) (i : Nat) (n : String) (off : Nat)
    (rest : List Char) (i' : Nat)
    (h : nextToken cs i = .ok (some (.var n off, rest, i'))) : (']' : Char) ∉ n.data :=
  scanTok_var_name _ _ n off rest i' h

theorem tokenizeF_var_names (fuel : Nat) :
    ∀ (cs : List Char) (i : Nat) (ts : List Tok) (eo : Nat),
      tokenizeF fuel cs i = .ok (ts, eo) →
      ∀ (n : String) (off : Nat), Tok.var n off ∈ ts → (']' : Char) ∉ n.data := by
  induction fuel with
  | zero => intro cs i ts eo h; simp [tokenizeF] at h
  | succ f ih =>
    intro cs i ts eo h n off hmem
    rw [tokenizeF] at h
    cases hnt : nextToken cs i with
    | error e => rw [hnt] at h; simp at h
    | ok o =>
      rw [hnt] at h
      cases o with
      | none =>
        simp only [Except.ok.injEq, Prod.mk.injEq] at h
        rw [← h.1] at hmem
        simp at hmem
      | some p =>
        obtain ⟨t, rest, i1⟩ := p
        replace h : Except.map (fun p => (t :: p.1, p.2)) (tokenizeF f rest i1) =
            .ok (ts, eo) := h
        cases hrec : tokenizeF f rest i1 with
        | error e => rw [hrec] at h; simp [Except.map] at h
        | ok q =>
          rw [hrec] at h
          simp only [Except.map, Except.ok.injEq, Prod.mk.injEq] at h
          rw [← h.1] at hmem
          rcases List.mem_cons.mp hmem with rfl | hmem'
          · exact nextToken_var_name cs i n off rest i1 hnt
          · exact ih rest i1 q.1 q.2 (by rw [hrec]) n off hmem'

/-! ### Variable names of a parsed tree come from variable tokens -/

/-- `n` names a variable of some subformula on the deque. -/
def InNames (n : String) (dq : List (Ast String × Tok)) : Prop :=
  ∃ p ∈ dq, n ∈ astNames p.1

theorem astNames_opAst (o : OpType) (l r : Ast String) (n : String)
    (h : n ∈ astNames (opAst o l r)) : n ∈ astNames l ∨ n ∈ astNames r := by
  cases o with
  | notOp => exact Or.inr h
  | andOp => exact List.mem_append.mp h
  | orOp => exact List.mem_append.mp h
  | implOp => exact List.mem_append.mp h
  | eqvOp => exact List.mem_append.mp h
  | xorOp => exact List.mem_append.mp h

theorem inNames_bin_push (o : OpType) (t : Tok) (r l : Ast String × Tok)
    (rest2 dq' : List (Ast String × Tok)) (n : String)
    (h : ((opAst o l.1 r.1, t) :: rest2) = dq') (hn : InNames n dq') :
    InNames n (r :: l :: rest2) := by
  subst h
  obtain ⟨p, hp, hnp⟩ := hn
  rcases List.mem_cons.mp hp with rfl | hp'
  · rcases astNames_opAst o l.1 r.1 n hnp with hl | hr
    · exact ⟨l, List.mem_cons_of_mem r (List.mem_cons_self l rest2), hl⟩
    · exact ⟨r, List.mem_cons_self r (l :: rest2), hr⟩
  · exact ⟨p, List.mem_cons_of_mem r (List.mem_cons_of_mem l hp'), hnp⟩

theorem reduceTok_names (t : Tok) (dq dq' : List (Ast String × Tok))
    (h : reduceTok t dq = .ok dq') (n : String) (hn : InNames n dq') : InNames n dq := by
  cases t with
  | const b off => simp [reduceTok] at h
  | var name off => simp [reduceTok] at h
  | paren b off =>
    cases b with
    | true =>
      cases Except.ok.inj h
      exact hn
    | false => simp [reduceTok] at h
  | op o off =>
    cases o with
    | notOp =>
      cases dq with
      | nil => simp [reduceTok] at h
      | cons r rest =>
        cases Except.ok.inj h
        obtain ⟨p, hp, hnp⟩ := hn
        rcases List.mem_cons.mp hp with rfl | hp'
        · exact ⟨r, List.mem_cons_self r rest, hnp⟩
        · exact ⟨p, List.mem_cons_of_mem r hp', hnp⟩
    | andOp =>
      cases dq with
      | nil => simp [reduceTok] at h
      | cons r rest =>
        cases rest with
        | nil => simp [reduceTok] at h
        | cons l rest2 => exact inNames_bin_push .andOp _ r l rest2 dq' n (Except.ok.inj h) hn
    | orOp =>
      cases dq with
      | nil => simp [reduceTok] at h
      | cons r rest =>
        cases rest with
        | nil => simp [reduceTok] at h
        | cons l rest2 => exact inNames_bin_push .orOp _ r l rest2 dq' n (Except.ok.inj h) hn
    | implOp =>
      cases dq with
      | nil => simp [reduceTok] at h
      | cons r rest =>
        cases rest with
        | nil => simp [reduceTok] at h
        | cons l rest2 => exact inNames_bin_push .implOp _ r l rest2 dq' n (Except.ok.inj h) hn
    | eqvOp =>
      cases dq with
      | nil => simp [reduceTok] at h
      | cons r rest =>
        cases rest with
        | nil => simp [reduceTok] at h
        | cons l rest2 => exact inNames_bin_push .eqvOp _ r l rest2 dq' n (Except.ok.inj h) hn
    | xorOp =>
      cases dq with
      | nil => simp [reduceTok] at h
      | cons r rest =>
        cases rest with
        | nil => simp [reduceTok] at h
        | cons l rest2 => exact inNames_bin_push .xorOp _ r l rest2 dq' n (Except.ok.inj h) hn

theorem popReduceOp_names (q : Nat) :
    ∀ (ops : List Tok) (dq : List (Ast String × Tok)) (ops' : List Tok)
      (dq' : List (Ast String × Tok)),
      popReduceOp q ops dq = .ok (ops', dq') →
      ∀ n, InNames n dq' → InNames n dq := by
  intro ops
  induction ops with
  | nil =>
    intro dq ops' dq' h n hn
    cases h
    exact hn
  | cons t ts ih =>
    intro dq ops' dq' h n hn
    rw [popReduceOp] at h
    split at h
    · cases h
      exact hn
    · cases hrt : reduceTok t dq with
      | error e => rw [hrt] at h; simp at h
      | ok dq2 =>
        rw [hrt] at h
        exact reduceTok_names t dq dq2 hrt n (ih dq2 ops' dq' h n hn)

theorem closeParen_names (offC : Nat) :
    ∀ (ops : List Tok) (dq : List (Ast String × Tok)) (ops' : List Tok)
      (dq' : List (Ast String × Tok)),
      closeParen offC ops dq = .ok (ops', dq') →
      ∀ n, InNames n dq' → InNames n dq := by
  intro ops
  induction ops with
  | nil => intro dq ops' dq' h n hn; simp [closeParen] at h
  | cons t ts ih =>
    intro dq ops' dq' h n hn
    rw [closeParen] at h
    cases hrt : reduceTok t dq with
    | error e => rw [hrt] at h; simp at h
    | ok dq2 =>
      rw [hrt] at h
      replace h : (if isOpeningPar t = true then Except.ok (ts, dq2)
          else closeParen offC ts dq2) = .ok (ops', dq') := h
      by_cases hop : isOpeningPar t = true
      · rw [if_pos hop] at h
        cases Except.ok.inj h
        exact reduceTok_names t dq _ hrt n hn
      · rw [if_neg hop] at h
        exact reduceTok_names t dq dq2 hrt n (ih dq2 ops' dq' h n hn)

theorem drainOps_names :
    ∀ (ops : List Tok) (dq dq' : List (Ast String × Tok)),
      drainOps ops dq = .ok dq' →
      ∀ n, InNames n dq' → InNames n dq := by
  intro ops
  induction ops with
  | nil =>
    intro dq dq' h n hn
    cases h
    exact hn
  | cons t ts ih =>
    intro dq dq' h n hn
    rw [drainOps] at h
    split at h
    · simp at h
    · cases hrt : reduceTok t dq with
      | error e => rw [hrt] at h; simp at h
      | ok dq2 =>
        rw [hrt] at h
        exact reduceTok_names t dq dq2 hrt n (ih dq2 dq' h n hn)

theorem parseLoop_names (eo : Nat) :
    ∀ (ts : List Tok) (dq : List (Ast String × Tok)) (ops : List Tok) (nx : Expect)
      (A : Ast String),
      parseLoop eo ts dq ops nx = .ok A →
      ∀ n, n ∈ astNames A → (∃ off, Tok.var n off ∈ ts) ∨ InNames n dq := by
  intro ts
  induction ts with
  | nil =>
    intro dq ops nx A h n hn
    rw [parseLoop] at h
    split at h
    · simp at h
    · cases hdr : drainOps ops dq with
      | error e => rw [hdr] at h; simp at h
      | ok dq' =>
        rw [hdr] at h
        cases dq' with
        | nil => simp at h
        | cons x rest =>
          cases rest with
          | nil =>
            cases Except.ok.inj h
            exact Or.inr (drainOps_names ops dq _ hdr n ⟨x, List.mem_singleton_self x, hn⟩)
          | cons y rest2 => simp at h
  | cons t ts ih =>
    intro dq ops nx A h n hn
    cases t with
    | const b off =>
      rw [parseLoop] at h
      split at h
      · rcases ih _ _ _ _ h n hn with ⟨off', hmem⟩ | hdq
        · exact Or.inl ⟨off', List.mem_cons_of_mem _ hmem⟩
        · obtain ⟨p, hp, hnp⟩ := hdq
          rcases List.mem_cons.mp hp with rfl | hp'
          · simp [astNames] at hnp
          · exact Or.inr ⟨p, hp', hnp⟩
      · simp at h
    | var name off =>
      rw [parseLoop] at h
      split at h
      · rcases ih _ _ _ _ h n hn with ⟨off', hmem⟩ | hdq
        · exact Or.inl ⟨off', List.mem_cons_of_mem _ hmem⟩
        · obtain ⟨p, hp, hnp⟩ := hdq
          rcases List.mem_cons.mp hp with rfl | hp'
          · simp only [astNames, List.mem_singleton] at hnp
            exact Or.inl ⟨off, by rw [hnp]; exact List.mem_cons_self _ _⟩
          · exact Or.inr ⟨p, hp', hnp⟩
      · simp at h
    | op o off =>
      rw [parseLoop] at h
      split at h
      · rename_i ho
        subst ho
        split at h
        · cases hpr : popReduceOp (opPrec OpType.notOp) ops dq with
          | error e => rw [hpr] at h; simp at h
          | ok p =>
            obtain ⟨ops', dq'⟩ := p
            rw [hpr] at h
            rcases ih _ _ _ _ h n hn with ⟨off', hmem⟩ | hdq
            · exact Or.inl ⟨off', List.mem_cons_of_mem _ hmem⟩
            · exact Or.inr (popReduceOp_names _ ops dq ops' dq' hpr n hdq)
        · simp at h
      · split at h
        · cases hpr : popReduceOp (opPrec o) ops dq with
          | error e => rw [hpr] at h; simp at h
          | ok p =>
            obtain ⟨ops', dq'⟩ := p
            rw [hpr] at h
            rcases ih _ _ _ _ h n hn with ⟨off', hmem⟩ | hdq
            · exact Or.inl ⟨off', List.mem_cons_of_mem _ hmem⟩
            · exact Or.inr (popReduceOp_names _ ops dq ops' dq' hpr n hdq)
        · simp at h
    | paren opening off =>
      cases opening with
      | true =>
        rw [parseLoop] at h
        split at h
        · rcases ih _ _ _ _ h n hn with ⟨off', hmem⟩ | hdq
          · exact Or.inl ⟨off', List.mem_cons_of_mem _ hmem⟩
          · exact Or.inr hdq
        · simp at h
      | false =>
        rw [parseLoop] at h
        split at h
        · simp at h
        · cases hcp : closeParen off ops dq with
          | error e => rw [hcp] at h; simp at h
          | ok p =>
            obtain ⟨ops', dq'⟩ := p
            rw [hcp] at h
            rcases ih _ _ _ _ h n hn with ⟨off', hmem⟩ | hdq
            · exact Or.inl ⟨off', List.mem_cons_of_mem _ hmem⟩
            · exact Or.inr (closeParen_names off ops dq ops' dq' hcp n hdq)

/-- Every tree the parser accepts has `]`-free variable names. -/
theorem parse_NamesOk (s : String) (F : Ast String) (h : parse s = .ok F) : NamesOk F := by
  rw [parse] at h
  cases htok : tokenize s.data 0 with
  | error e => rw [htok] at h; simp at h
  | ok p =>
    obtain ⟨ts, eo⟩ := p
    rw [htok] at h
    replace h : parseLoop eo ts [] [] .term = .ok F := h
    intro n hn
    rcases parseLoop_names eo ts [] [] .term F h n hn with ⟨off, hmem⟩ | hdq
    · exact tokenizeF_var_names (s.data.length + 1) s.data 0 ts eo htok n off hmem
    · obtain ⟨p, hp, _⟩ := hdq
      simp at hp

/-- C2 amended: for every formula string s accepted by the parser with
F = parse(s), *provided no binary node of F has a left operand of the
same precedence* (to_infix prints such an operand without parentheses,
but the parser associates equal precedence to the right), parsing
F.to_infix() succeeds and yields a formula whose postfix
stringification equals F.to_postfix(). -/
theorem C2_roundtrip_amended (s : String) (F : Ast String)
    (h : parse s = .ok F) (hrl : RightLeanB F = true) :
    ∃ G, parse (Formula.toInfixStr F) = .ok G ∧
      Formula.toPostfixStr G = Formula.toPostfixStr F :=
  ⟨F, parse_toInfixStr F (parse_NamesOk s F h) hrl, rfl⟩

theorem C2_roundtrip_amended_witness :
    parse "(a & b) -> c" = .ok (.impl (.and (.var "a") (.var "b")) (.var "c")) ∧
    RightLeanB (.impl (.and (.var "a") (.var "b")) (.var "c")) = true ∧
    ∃ G,
      parse (Formula.toInfixStr (.impl (.and (.var "a") (.var "b")) (.var "c"))) = .ok G ∧
      Formula.toPostfixStr G =
        Formula.toPostfixStr (.impl (.and (.var "a") (.var "b")) (.var "c")) :=
  ⟨by decide, by decide,
    C2_roundtrip_amended "(a & b) -> c" (.impl (.and (.var "a") (.var "b")) (.var "c"))
      (by decide) (by decide)⟩

end Propcalc
